import Mathlib

/-!
Verification of `simulate_portfolio.py` (fool_simulation).

A shallow embedding of the portfolio-simulation engine in
`src/simulate_portfolio.py`.  Python floats are modelled as rationals (`ℚ`),
calendar dates as naturals (`Date := ℕ`), the `yfinance` price-history
provider as an explicit function parameter `fetch`, and the Python `dict`s
(`portfolio`, `history`) as insertion-ordered association lists, which is
exactly the iteration/update semantics of a Python 3 dict with unique keys.
-/

namespace FoolSim

/-- Calendar dates, abstract and totally ordered. -/
abbrev Date := Nat

/-- One daily price bar of a symbol: the `Open/High/Low/Close/Dividends`
columns of a `yfinance` history row (`Open` is unused by the engine). -/
structure PriceBar where
  openPrice : ℚ
  high : ℚ
  low : ℚ
  close : ℚ
  dividends : ℚ
deriving Repr, DecidableEq

/-- A price history: a date-indexed series of bars
(`get_history` guarantees at most one bar per date). -/
abbrev Hist := List (Date × PriceBar)

/-- One row of `newrecs.csv` after `read_recommendations`:
`date, symbol, name, recommendation`. -/
structure Recommendation where
  date : Date
  symbol : String
  name : String
  recommendation : String
deriving Repr, DecidableEq

/-- The `portfolio` dict: symbol → share count (fractional shares allowed). -/
abbrev Portfolio := List (String × ℚ)

/-- The `history` dict: symbol → cached price history. -/
abbrev Histories := List (String × Hist)

/-- `INVESTMENT = 10000`: the fixed amount invested on each buy. -/
def INVESTMENT : ℚ := 10000

/-- `SnP500 = "SPY"`: the benchmark symbol. -/
def SnP500 : String := "SPY"

/-- Python's `str.lower()` (ASCII as used by the recommendation constants):
character-wise lowercasing; the same function as `String.toLower`, stated
over the character list so that it evaluates inside the kernel. -/
def lower (s : String) : String := ⟨s.data.map Char.toLower⟩

/-- Lookup in an insertion-ordered association list (Python `d[k]`,
first matching key wins; keys are unique in every reachable state). -/
def lookupA {α β : Type} [DecidableEq α] (k : α) : List (α × β) → Option β
  | [] => none
  | (k', v) :: rest => if k' = k then some v else lookupA k rest

/-- Update an existing key in place, or append a fresh key at the end:
this is the Python `d[k] = v` dict semantics (insertion order preserved). -/
def setA {α β : Type} [DecidableEq α] (k : α) (v : β) :
    List (α × β) → List (α × β)
  | [] => [(k, v)]
  | (k', v') :: rest =>
      if k' = k then (k, v) :: rest else (k', v') :: setA k v rest

/-- Remove a key (`del d[k]`); removes the first occurrence, which is the
only one since keys are unique. -/
def eraseA {α β : Type} [DecidableEq α] (k : α) :
    List (α × β) → List (α × β)
  | [] => []
  | (k', v') :: rest =>
      if k' = k then rest else (k', v') :: eraseA k rest

/-- The mutable state threaded through the day loop of `simulate_portfolio`:
`portfolio`, `history`, `cash`, `investment` (= cumulative investment). -/
structure SimState where
  portfolio : Portfolio
  history : Histories
  cash : ℚ
  investment : ℚ
deriving Repr, DecidableEq

/-- One output row `[current_date, investment, fool_amount, snp_amount]`
appended to `data` each trading day. -/
structure OutputRow where
  date : Date
  cumulativeInvestment : ℚ
  portfolioValue : ℚ
  benchmarkValue : ℚ
deriving Repr, DecidableEq

/-- Apply one recommendation whose symbol has a bar `price` for the current
date (lines 102-132 of `simulate_portfolio.py`).  `snpBar` is the benchmark's
bar for the current date: the source reads it back as
`history[SnP500].loc[current_date]`, and since `current_date` ranges over
exactly the benchmark's (duplicate-free) index, that lookup always yields the
bar of the current loop iteration, which we pass in directly. -/
def applyPriced (snpBar : PriceBar) (st : SimState) (rec : Recommendation)
    (price : PriceBar) : SimState :=
  let symbol := rec.symbol
  let action := lower rec.recommendation
  if action = "buy" then
    -- shares = INVESTMENT / price['High']
    let shares := INVESTMENT / price.high
    let portfolio :=
      match lookupA symbol st.portfolio with
      | none => st.portfolio ++ [(symbol, shares)]
      | some q => setA symbol (q + shares) st.portfolio
    if INVESTMENT ≤ st.cash then
      { st with portfolio := portfolio, cash := st.cash - INVESTMENT }
    else
      let purchase := INVESTMENT - st.cash
      let snp_price := snpBar.high
      let portfolio :=
        match lookupA SnP500 portfolio with
        | none => portfolio ++ [(SnP500, purchase / snp_price)]
        | some q => setA SnP500 (q + purchase / snp_price) portfolio
      { st with portfolio := portfolio,
                investment := st.investment + purchase,
                cash := 0 }
  else if action = "sell" then
    match lookupA symbol st.portfolio with
    | none => st
    | some shares =>
        { st with cash := st.cash + shares * price.low,
                  portfolio := eraseA symbol st.portfolio }
  else if action = "reduce" then
    match lookupA symbol st.portfolio with
    | none => st
    | some q =>
        -- shares = portfolio[symbol] // 2  (float floor division)
        let shares : ℤ := ⌊q / 2⌋
        { st with cash := st.cash + (shares : ℚ) * price.low,
                  portfolio := setA symbol (q - (shares : ℚ)) st.portfolio }
  else st

/-- Apply one popped recommendation (lines 89-132): fetch the symbol's
history if it is not cached yet (dropping the recommendation when the fetch
comes back empty), skip if the history has no bar for the current date,
otherwise dispatch on the action. -/
def applyRec (fetch : String → Date → Date → Hist) (today : Date)
    (currentDate : Date) (snpBar : PriceBar) (st : SimState)
    (rec : Recommendation) : SimState :=
  match lookupA rec.symbol st.history with
  | none =>
      let hist := fetch rec.symbol currentDate today
      if hist = [] then st
      else
        let st' := { st with history := setA rec.symbol hist st.history }
        match lookupA currentDate hist with
        | none => st'
        | some price => applyPriced snpBar st' rec price
  | some h =>
      match lookupA currentDate h with
      | none => st
      | some price => applyPriced snpBar st rec price

/-- The inner `while` loop (lines 87-88): pop and apply every pending
recommendation dated strictly before the current date.  The Python queue is
sorted descending and popped from the tail; we model it as the reversed
(hence ascending) list popped from the head.  Returns the new state, the
remaining queue, and the log of popped recommendations tagged with the day
they were popped on. -/
def processRecs (fetch : String → Date → Date → Hist) (today : Date)
    (currentDate : Date) (snpBar : PriceBar) :
    SimState → List Recommendation →
      SimState × List Recommendation × List (Date × Recommendation)
  | st, [] => (st, [], [])
  | st, r :: rest =>
      if r.date < currentDate then
        let st' := applyRec fetch today currentDate snpBar st r
        let (st'', q, log) := processRecs fetch today currentDate snpBar st' rest
        (st'', q, (currentDate, r) :: log)
      else
        (st, r :: rest, [])

/-- The bar of `symbol` on date `d`, when the cached history of `symbol`
has one (`current_date in history[symbol].index` followed by
`history[symbol].loc[current_date]`). -/
def barFor (d : Date) (history : Histories) (symbol : String) :
    Option PriceBar :=
  (lookupA symbol history).bind (lookupA d)

/-- The valuation loop (lines 135-150): walk the portfolio entries in
insertion order; skip positions with no bar for the current date; grow the
share count multiplicatively when the day's dividend is positive; accumulate
non-benchmark values into the fool sum and record the benchmark's value
separately.  Returns the updated portfolio, the fool sum (excluding cash),
and the benchmark amount.  In the source the `history[symbol]` lookup cannot
fail for a portfolio key (histories are cached before a symbol ever enters
the portfolio), so the missing-history case is folded into the missing-bar
skip. -/
def valuation (currentDate : Date) (history : Histories) :
    Portfolio → Portfolio × ℚ × ℚ
  | [] => ([], 0, 0)
  | (symbol, q) :: rest =>
      match barFor currentDate history symbol with
      | none =>
          let (p, fool, snp) := valuation currentDate history rest
          ((symbol, q) :: p, fool, snp)
      | some price =>
          let q' := if 0 < price.dividends
                    then q * (1 + price.dividends / 100) else q
          let amount := q' * price.close
          let (p, fool, snp) := valuation currentDate history rest
          if symbol = SnP500 then ((symbol, q') :: p, fool, amount)
          else ((symbol, q') :: p, fool + amount, snp)

/-- The month-end / final-day reporter (lines 153-166).  The block runs on
the last trading day, or when the next benchmark date falls in a different
calendar month (`month` is the dates' month attribute, passed explicitly;
the source compares `index[get_loc(current_date) + 1].month` with
`current_date.month`, which for the duplicate-free benchmark index is
exactly the next calendar entry).  The block itself only prints, *except*
that line 160 runs `history[symbol].loc[current_date]` on every
non-benchmark position with no membership guard: when such a position has
no bar for the day, the interpreter raises `KeyError` and the whole run
aborts.  This predicate is true exactly when that happens. -/
def monthEndAborts (month : Date → Nat) (currentDate : Date)
    (next? : Option Date) (history : Histories) (portfolio : Portfolio) :
    Bool :=
  (match next? with
   | none => true
   | some d' => decide (month d' ≠ month currentDate)) &&
  portfolio.any (fun e =>
    decide (e.1 ≠ SnP500) && (barFor currentDate history e.1).isNone)

/-- One iteration of the day loop (lines 85-166): apply pending
recommendations, value the portfolio, append one output row, then run the
month-end / final-day reporter, which may abort the run (the `Bool` in the
result is the abort flag).  `next?` is the next benchmark calendar date,
`none` on the last day. -/
def dayStep (fetch : String → Date → Date → Hist) (today : Date)
    (month : Date → Nat) (currentDate : Date) (next? : Option Date)
    (snpBar : PriceBar) (st : SimState) (recs : List Recommendation) :
    SimState × List Recommendation × List (Date × Recommendation) ×
      OutputRow × Bool :=
  let (st1, recs1, log) := processRecs fetch today currentDate snpBar st recs
  let (portfolio', foolSum, snpAmount) :=
    valuation currentDate st1.history st1.portfolio
  ({ st1 with portfolio := portfolio' }, recs1, log,
    ⟨currentDate, st1.investment, st1.cash + foolSum, snpAmount⟩,
    monthEndAborts month currentDate next? st1.history portfolio')

/-- The day loop over the benchmark calendar, one `dayStep` per entry of the
benchmark's history, collecting the output rows in order.  When a day's
reporter raises (abort flag set), the loop stops there and the final flag
is `true`: the `KeyError` propagates out of `simulate_portfolio`. -/
def runDays (fetch : String → Date → Date → Hist) (today : Date)
    (month : Date → Nat) :
    List (Date × PriceBar) → SimState → List Recommendation →
      SimState × List Recommendation × List (Date × Recommendation) ×
        List OutputRow × Bool
  | [], st, recs => (st, recs, [], [], false)
  | (d, bar) :: rest, st, recs =>
      let (st1, recs1, log1, row, aborted) :=
        dayStep fetch today month d ((rest.head?).map Prod.fst) bar st recs
      if aborted then (st1, recs1, log1, [row], true)
      else
        let (st2, recs2, log2, rows, aborted2) :=
          runDays fetch today month rest st1 recs1
        (st2, recs2, log1 ++ log2, row :: rows, aborted2)

/-- Line 73: keep only recommendations dated strictly after `first_date`,
stably sorted descending by date; the Python tail-pop order is its reverse. -/
def sortRecs (recs : List Recommendation) (first_date : Date) :
    List Recommendation :=
  ((recs.filter (fun x => first_date < x.date)).mergeSort
    (fun a b => b.date ≤ a.date)).reverse

/-- `simulate_portfolio(recs, first_date, last_date)` (lines 72-168), with
the market-data provider `fetch symbol start end`, `datetime.today()` and
the calendar's month attribute passed explicitly.  Returns the log of
popped recommendations (the console trace, emitted even on a crash) and,
when no day's reporter raised, the final state together with the output
rows (`data`); `none` models the `KeyError` abort, from which the
function returns nothing. -/
def simulate_portfolio (fetch : String → Date → Date → Hist) (today : Date)
    (month : Date → Nat) (recs : List Recommendation)
    (first_date last_date : Date) :
    List (Date × Recommendation) × Option (SimState × List OutputRow) :=
  let recsQ := sortRecs recs first_date
  let snpHist := fetch SnP500 first_date last_date
  let st0 : SimState :=
    { portfolio := [(SnP500, 0)], history := [(SnP500, snpHist)],
      cash := 0, investment := 0 }
  let (st, _, log, rows, aborted) := runDays fetch today month snpHist st0 recsQ
  (log, if aborted then none else some (st, rows))

/-! ## Valuation: dividend accrual and value characterization

Spec-side counterparts of the valuation loop, written after the spec's
words, to compare against `valuation` (which is translated from the
source). -/

/-- Spec-side dividend accrual of one position: if the day's dividend value
is present and positive, `shares *= 1 + dividend/100`; otherwise the share
count is unchanged. -/
def specAccrue (d : Date) (history : Histories) : String × ℚ → String × ℚ
  | (s, q) =>
      match barFor d history s with
      | some price =>
          if 0 < price.dividends then (s, q * (1 + price.dividends / 100))
          else (s, q)
      | none => (s, q)

/-- Spec-side market value of one position on day `d`: `shares * close`,
or `0` when no bar exists for `d` (stale positions are omitted). -/
def positionValue (d : Date) (history : Histories) (e : String × ℚ) : ℚ :=
  match barFor d history e.1 with
  | some price => e.2 * price.close
  | none => 0

/-- Spec-side fool value of a portfolio on day `d` (cash excluded): the sum
of `shareCount * Close` over the non-benchmark positions that have a bar. -/
def foolValue (d : Date) (history : Histories) (p : Portfolio) : ℚ :=
  ((p.filter (fun e => e.1 ≠ SnP500)).map (positionValue d history)).sum

/-- Spec-side benchmark value: the value of the first benchmark position
having a bar for `d` (there is at most one in any reachable state),
`0` if there is none. -/
def benchValue (d : Date) (history : Histories) : Portfolio → ℚ
  | [] => 0
  | (s, q) :: rest =>
      if s = SnP500 ∧ (barFor d history s).isSome
      then positionValue d history (s, q)
      else benchValue d history rest

/-! ## Invariant predicates and sample inputs -/

/-- Every bar of every cached history satisfies `Q`. -/
def histBars (Q : PriceBar → Prop) (hs : Histories) : Prop :=
  ∀ s h, (s, h) ∈ hs → ∀ d b, (d, b) ∈ h → Q b

/-- Every bar the provider can ever return satisfies `Q`. -/
def fetchBars (Q : PriceBar → Prop)
    (fetch : String → Date → Date → Hist) : Prop :=
  ∀ s d₁ d₂ d b, (d, b) ∈ fetch s d₁ d₂ → Q b

/-- A bar with non-negative High and Low values. -/
def nonnegBar (b : PriceBar) : Prop := 0 ≤ b.high ∧ 0 ≤ b.low

/-- A bar with a positive High value. -/
def posHighBar (b : PriceBar) : Prop := 0 < b.high

/-- All share counts of a portfolio are non-negative. -/
def nonnegShares (p : Portfolio) : Prop := ∀ s q, (s, q) ∈ p → 0 ≤ q

/-- Open-position invariant: every non-benchmark key holds a strictly
positive share count, and every key holds a non-negative one. -/
def openInv (p : Portfolio) : Prop :=
  ∀ s q, (s, q) ∈ p → (s ≠ SnP500 → 0 < q) ∧ 0 ≤ q

/-- Sample flat price bar for concrete runs. -/
def bar0 : PriceBar := ⟨1, 1, 1, 1, 0⟩

/-- Sample bar whose Low differs from the other columns. -/
def bar2 : PriceBar := ⟨1, 1, 2, 1, 0⟩

/-- A provider with no data at all. -/
def fetchNil : String → Date → Date → Hist := fun _ _ _ => []

/-- A provider returning the one-day history `[(1, bar0)]` always. -/
def fetch1 : String → Date → Date → Hist := fun _ _ _ => [(1, bar0)]

/-- A provider returning the two-day history `[(1, bar0), (3, bar0)]`. -/
def fetch2 : String → Date → Date → Hist :=
  fun _ _ _ => [(1, bar0), (3, bar0)]

/-- A month attribute placing every date in the same month. -/
def monthZero : Date → Nat := fun _ => 0

/-- A provider whose benchmark trades on days 2 and 4 but whose other
symbols have a bar only on day 2: a symbol bought on day 2 has no bar on
the final day 4. -/
def fetchBug : String → Date → Date → Hist :=
  fun s _ _ => if s = SnP500 then [(2, bar0), (4, bar0)] else [(2, bar2)]

/-! ## Association-list lemmas -/

theorem lookupA_setA_self {α β : Type} [DecidableEq α] (k : α) (v : β)
    (m : List (α × β)) : lookupA k (setA k v m) = some v := by
  induction m with
  | nil => simp [setA, lookupA]
  | cons e rest ih =>
      obtain ⟨k', v'⟩ := e
      by_cases h : k' = k
      · subst h; simp [setA, lookupA]
      · simp [setA, lookupA, h, ih]

theorem lookupA_setA_ne {α β : Type} [DecidableEq α] {k k' : α} (v : β)
    (m : List (α × β)) (hne : k ≠ k') :
    lookupA k' (setA k v m) = lookupA k' m := by
  induction m with
  | nil => simp [setA, lookupA, hne]
  | cons e rest ih =>
      obtain ⟨k₀, v₀⟩ := e
      by_cases h : k₀ = k
      · subst h; simp [setA, lookupA, hne]
      · simp [setA, lookupA, h, ih]

theorem lookupA_append {α β : Type} [DecidableEq α] (k : α)
    (m l : List (α × β)) :
    lookupA k (m ++ l) =
      (match lookupA k m with
       | some v => some v
       | none => lookupA k l) := by
  induction m with
  | nil => simp [lookupA]
  | cons e rest ih =>
      obtain ⟨k₀, v₀⟩ := e
      by_cases h : k₀ = k
      · simp [lookupA, h]
      · simp [lookupA, h, ih]

theorem lookupA_eraseA_ne {α β : Type} [DecidableEq α] {k k' : α}
    (m : List (α × β)) (hne : k ≠ k') :
    lookupA k' (eraseA k m) = lookupA k' m := by
  induction m with
  | nil => simp [eraseA]
  | cons e rest ih =>
      obtain ⟨k₀, v₀⟩ := e
      by_cases h : k₀ = k
      · subst h; simp [eraseA, lookupA, hne, Ne.symm hne]
      · simp [eraseA, lookupA, h, ih]

theorem lookupA_eq_none {α β : Type} [DecidableEq α] {k : α}
    {m : List (α × β)} (h : k ∉ m.map Prod.fst) : lookupA k m = none := by
  induction m with
  | nil => simp [lookupA]
  | cons e rest ih =>
      obtain ⟨k₀, v₀⟩ := e
      simp only [List.map_cons, List.mem_cons] at h
      push_neg at h
      simp only [lookupA, if_neg (Ne.symm h.1), ih h.2]

theorem lookupA_eraseA_self {α β : Type} [DecidableEq α] (k : α)
    (m : List (α × β)) (hnd : (m.map Prod.fst).Nodup) :
    lookupA k (eraseA k m) = none := by
  induction m with
  | nil => simp [eraseA, lookupA]
  | cons e rest ih =>
      obtain ⟨k₀, v₀⟩ := e
      simp only [List.map_cons, List.nodup_cons] at hnd
      by_cases h : k₀ = k
      · subst h
        simp only [eraseA, if_true, eq_self_iff_true]
        exact lookupA_eq_none hnd.1
      · simp only [eraseA, if_neg h, lookupA, if_neg h]
        exact ih hnd.2

theorem lookupA_some_mem {α β : Type} [DecidableEq α] {k : α} {v : β}
    {m : List (α × β)} (h : lookupA k m = some v) : (k, v) ∈ m := by
  induction m with
  | nil => simp [lookupA] at h
  | cons e rest ih =>
      obtain ⟨k₀, v₀⟩ := e
      by_cases hk : k₀ = k
      · subst hk
        simp [lookupA] at h
        simp [h]
      · simp only [lookupA, if_neg hk] at h
        exact List.mem_cons_of_mem _ (ih h)

theorem mem_setA {α β : Type} [DecidableEq α] {k : α} {v : β}
    {m : List (α × β)} {e : α × β} (h : e ∈ setA k v m) :
    e = (k, v) ∨ e ∈ m := by
  induction m with
  | nil => simpa [setA] using h
  | cons e₀ rest ih =>
      obtain ⟨k₀, v₀⟩ := e₀
      by_cases hk : k₀ = k
      · subst hk
        simp only [setA, if_true, eq_self_iff_true, List.mem_cons] at h
        rcases h with h | h
        · exact Or.inl h
        · exact Or.inr (List.mem_cons_of_mem _ h)
      · simp only [setA, if_neg hk, List.mem_cons] at h
        rcases h with h | h
        · exact Or.inr (by simp [h])
        · rcases ih h with h' | h'
          · exact Or.inl h'
          · exact Or.inr (List.mem_cons_of_mem _ h')

theorem mem_eraseA {α β : Type} [DecidableEq α] {k : α}
    {m : List (α × β)} {e : α × β} (h : e ∈ eraseA k m) : e ∈ m := by
  induction m with
  | nil => simp [eraseA] at h
  | cons e₀ rest ih =>
      obtain ⟨k₀, v₀⟩ := e₀
      by_cases hk : k₀ = k
      · subst hk
        simp only [eraseA, if_true, eq_self_iff_true] at h
        exact List.mem_cons_of_mem _ h
      · simp only [eraseA, if_neg hk, List.mem_cons] at h
        rcases h with h | h
        · simp [h]
        · exact List.mem_cons_of_mem _ (ih h)

theorem mem_append_singleton {α : Type} {m : List α} {a e : α}
    (h : e ∈ m ++ [a]) : e ∈ m ∨ e = a := by
  rcases List.mem_append.1 h with h | h
  · exact Or.inl h
  · exact Or.inr (List.mem_singleton.1 h)

/-! ## Valuation characterization lemmas -/

theorem valuation_portfolio (d : Date) (history : Histories) (p : Portfolio) :
    (valuation d history p).1 = p.map (specAccrue d history) := by
  induction p with
  | nil => simp [valuation]
  | cons e rest ih =>
      obtain ⟨s, q⟩ := e
      simp only [valuation, List.map_cons]
      rcases hb : barFor d history s with _ | price
      · simp [specAccrue, hb, ih]
      · by_cases hdiv : 0 < price.dividends
        · by_cases hs : s = SnP500
          · subst hs; simp [specAccrue, hb, hdiv, ih]
          · simp [specAccrue, hb, hdiv, hs, ih]
        · by_cases hs : s = SnP500
          · subst hs; simp [specAccrue, hb, hdiv, ih]
          · simp [specAccrue, hb, hdiv, hs, ih]

theorem valuation_fool (d : Date) (history : Histories) (p : Portfolio) :
    (valuation d history p).2.1 =
      foolValue d history (p.map (specAccrue d history)) := by
  induction p with
  | nil => simp [valuation, foolValue]
  | cons e rest ih =>
      obtain ⟨s, q⟩ := e
      simp only [valuation, List.map_cons]
      rcases hb : barFor d history s with _ | price
      · by_cases hs : s = SnP500
        · subst hs; simp [specAccrue, foolValue, positionValue, hb, ih]
        · simp [specAccrue, foolValue, positionValue, hb, hs, ih]
      · by_cases hdiv : 0 < price.dividends
        · by_cases hs : s = SnP500
          · subst hs; simp [specAccrue, foolValue, positionValue, hb, hdiv, ih]
          · simp [specAccrue, foolValue, positionValue, hb, hdiv, hs, ih,
              add_comm]
        · by_cases hs : s = SnP500
          · subst hs; simp [specAccrue, foolValue, positionValue, hb, hdiv, ih]
          · simp [specAccrue, foolValue, positionValue, hb, hdiv, hs, ih,
              add_comm]

theorem valuation_bench (d : Date) (history : Histories) (p : Portfolio) :
    (valuation d history p).2.2 =
      benchValue d history (p.map (specAccrue d history)) := by
  induction p with
  | nil => simp [valuation, benchValue]
  | cons e rest ih =>
      obtain ⟨s, q⟩ := e
      simp only [valuation, List.map_cons]
      rcases hb : barFor d history s with _ | price
      · by_cases hs : s = SnP500
        · subst hs; simp [specAccrue, benchValue, positionValue, hb, ih]
        · simp [specAccrue, benchValue, positionValue, hb, hs, ih]
      · by_cases hdiv : 0 < price.dividends
        · by_cases hs : s = SnP500
          · subst hs; simp [specAccrue, benchValue, positionValue, hb, hdiv, ih]
          · simp [specAccrue, benchValue, positionValue, hb, hdiv, hs, ih]
        · by_cases hs : s = SnP500
          · subst hs; simp [specAccrue, benchValue, positionValue, hb, hdiv, ih]
          · simp [specAccrue, benchValue, positionValue, hb, hdiv, hs, ih]

/-! ## C5: REDUCE halves the position -/

/-- C5: a REDUCE applied on trading day `t` to a symbol with an open
position of `n` shares and a bar for `t` liquidates `⌊n/2⌋` shares at that
day's Low price: cash increases by `⌊n/2⌋ * Low`, and the position keeps
`n - ⌊n/2⌋` shares open (the key stays in the portfolio). -/
theorem reduce_halves (fetch : String → Date → Date → Hist) (today t : Date)
    (snpBar : PriceBar) (st : SimState) (rec : Recommendation)
    (h : Hist) (price : PriceBar) (n : ℚ)
    (hh : lookupA rec.symbol st.history = some h)
    (hp : lookupA t h = some price)
    (ha : lower rec.recommendation = "reduce")
    (hn : lookupA rec.symbol st.portfolio = some n) :
    (applyRec fetch today t snpBar st rec).cash
      = st.cash + (⌊n / 2⌋ : ℚ) * price.low ∧
    lookupA rec.symbol (applyRec fetch today t snpBar st rec).portfolio
      = some (n - (⌊n / 2⌋ : ℚ)) := by
  simp only [applyRec, hh, hp, applyPriced, ha, hn]
  rw [if_neg (by decide : ¬ ("reduce" = "buy")),
      if_neg (by decide : ¬ ("reduce" = "sell"))]
  exact ⟨rfl, lookupA_setA_self _ _ _⟩

/-- Witness for C5 at a concrete input: a REDUCE of a 3-share position with
Low = 2 credits `⌊3/2⌋ * 2` to cash and keeps `3 - ⌊3/2⌋` shares. -/
theorem reduce_halves_witness :
    (applyRec fetchNil 0 5 bar0
        { portfolio := [("AAA", 3)], history := [("AAA", [(5, bar2)])],
          cash := 0, investment := 0 }
        ⟨4, "AAA", "AAA Corp", "REDUCE"⟩).cash
      = 0 + (⌊(3 : ℚ) / 2⌋ : ℚ) * bar2.low ∧
    lookupA "AAA"
      (applyRec fetchNil 0 5 bar0
        { portfolio := [("AAA", 3)], history := [("AAA", [(5, bar2)])],
          cash := 0, investment := 0 }
        ⟨4, "AAA", "AAA Corp", "REDUCE"⟩).portfolio
      = some (3 - (⌊(3 : ℚ) / 2⌋ : ℚ)) :=
  reduce_halves fetchNil 0 5 bar0
    { portfolio := [("AAA", 3)], history := [("AAA", [(5, bar2)])],
      cash := 0, investment := 0 }
    ⟨4, "AAA", "AAA Corp", "REDUCE"⟩ [(5, bar2)] bar2 3
    (by decide) (by decide) (by decide) (by decide)

/-! ## C6: dividend accrual during valuation -/

/-- C6: during valuation of a trading day, every open position (the
benchmark included) whose bar for that day has positive dividend value `v`
has its share count replaced by `s * (1 + v/100)` — unchanged when `v ≤ 0`
or the bar is absent (that is what `specAccrue` says) — and that day's
values (the fool sum and the benchmark amount of the `OutputRow`) are
computed from the post-accrual share counts. -/
theorem dividend_accrual (d : Date) (history : Histories) (p : Portfolio) :
    (valuation d history p).1 = p.map (specAccrue d history) ∧
    (valuation d history p).2.1
      = foolValue d history (p.map (specAccrue d history)) ∧
    (valuation d history p).2.2
      = benchValue d history (p.map (specAccrue d history)) :=
  ⟨valuation_portfolio d history p, valuation_fool d history p,
    valuation_bench d history p⟩

/-! ## C7: SELL closes the position -/

/-- C7: a SELL applied on trading day `t` to a symbol with a bar for `t`
either liquidates the whole open position of `n` shares at that day's Low
price — cash grows by exactly `n * Low` and the key is deleted from the
portfolio — or, when no position is open, leaves the state unchanged. -/
theorem sell_closes (fetch : String → Date → Date → Hist) (today t : Date)
    (snpBar : PriceBar) (st : SimState) (rec : Recommendation)
    (h : Hist) (price : PriceBar)
    (hh : lookupA rec.symbol st.history = some h)
    (hp : lookupA t h = some price)
    (ha : lower rec.recommendation = "sell") :
    (∀ n, lookupA rec.symbol st.portfolio = some n →
      (st.portfolio.map Prod.fst).Nodup →
        (applyRec fetch today t snpBar st rec).cash
          = st.cash + n * price.low ∧
        lookupA rec.symbol (applyRec fetch today t snpBar st rec).portfolio
          = none) ∧
    (lookupA rec.symbol st.portfolio = none →
      applyRec fetch today t snpBar st rec = st) := by
  constructor
  · intro n hn hnd
    simp only [applyRec, hh, hp, applyPriced, ha, hn]
    rw [if_neg (by decide : ¬ ("sell" = "buy")), if_pos trivial]
    exact ⟨rfl, lookupA_eraseA_self _ _ hnd⟩
  · intro hn
    simp only [applyRec, hh, hp, applyPriced, ha, hn]
    rw [if_neg (by decide : ¬ ("sell" = "buy")), if_pos trivial]

/-- Witness for C7 at a concrete input: selling an open 3-share position
with Low = 2, and selling with no open position. -/
theorem sell_closes_witness :
    ((applyRec fetchNil 0 5 bar0
        { portfolio := [("AAA", 3)], history := [("AAA", [(5, bar2)])],
          cash := 0, investment := 0 }
        ⟨4, "AAA", "AAA Corp", "Sell"⟩).cash
      = 0 + 3 * bar2.low ∧
     lookupA "AAA"
      (applyRec fetchNil 0 5 bar0
        { portfolio := [("AAA", 3)], history := [("AAA", [(5, bar2)])],
          cash := 0, investment := 0 }
        ⟨4, "AAA", "AAA Corp", "Sell"⟩).portfolio = none) ∧
    applyRec fetchNil 0 5 bar0
        { portfolio := [], history := [("AAA", [(5, bar2)])],
          cash := 0, investment := 0 }
        ⟨4, "AAA", "AAA Corp", "Sell"⟩
      = { portfolio := [], history := [("AAA", [(5, bar2)])],
          cash := 0, investment := 0 } :=
  ⟨(sell_closes fetchNil 0 5 bar0
      { portfolio := [("AAA", 3)], history := [("AAA", [(5, bar2)])],
        cash := 0, investment := 0 }
      ⟨4, "AAA", "AAA Corp", "Sell"⟩ [(5, bar2)] bar2
      (by decide) (by decide) (by decide)).1 3 (by decide) (by decide),
   (sell_closes fetchNil 0 5 bar0
      { portfolio := [], history := [("AAA", [(5, bar2)])],
        cash := 0, investment := 0 }
      ⟨4, "AAA", "AAA Corp", "Sell"⟩ [(5, bar2)] bar2
      (by decide) (by decide) (by decide)).2 (by decide)⟩

/-! ## C1: BUY accounting -/

/-- C1 as stated is false when the recommended symbol is the benchmark
itself: with zero cash, a BUY of `"SPY"` (High = 1) grows the SPY position
by `INVESTMENT / High` from the purchase *and additionally* by the
shortfall-funding benchmark purchase, for a total of `20000`, not the
claimed `0 + INVESTMENT / High = 10000`. -/
theorem buy_growth_counterexample :
    lookupA "SPY"
      (applyRec fetchNil 0 5 bar0
        { portfolio := [("SPY", 0)], history := [("SPY", [(5, bar0)])],
          cash := 0, investment := 0 }
        ⟨4, "SPY", "S&P 500", "buy"⟩).portfolio
      = some 20000 ∧
    (20000 : ℚ) ≠ 0 + INVESTMENT / bar0.high := by
  constructor
  · simp only [applyRec, applyPriced, lookupA, setA, fetchNil, bar0,
      SnP500, lower]
    norm_num [INVESTMENT, lookupA, setA]
  · norm_num [INVESTMENT, bar0]

/-- C1 (amended: for a symbol other than the benchmark): a BUY applied on
trading day `t` to a symbol with a bar for `t` grows that position by
`INVESTMENT / High` (creating the key if absent); if `cash ≥ INVESTMENT`
then cash drops by exactly `INVESTMENT` and `investment` is unchanged,
otherwise `investment` grows by exactly the shortfall `INVESTMENT - cash`
and cash becomes `0`.  (For the benchmark symbol itself a shortfall BUY
additionally adds the shortfall-funded shares, see the counterexample.) -/
theorem buy_accounting (fetch : String → Date → Date → Hist) (today t : Date)
    (snpBar : PriceBar) (st : SimState) (rec : Recommendation)
    (h : Hist) (price : PriceBar)
    (hs : rec.symbol ≠ SnP500)
    (hh : lookupA rec.symbol st.history = some h)
    (hp : lookupA t h = some price)
    (ha : lower rec.recommendation = "buy") :
    lookupA rec.symbol (applyRec fetch today t snpBar st rec).portfolio
      = some ((lookupA rec.symbol st.portfolio).getD 0
                + INVESTMENT / price.high) ∧
    (INVESTMENT ≤ st.cash →
      (applyRec fetch today t snpBar st rec).cash = st.cash - INVESTMENT ∧
      (applyRec fetch today t snpBar st rec).investment = st.investment) ∧
    (st.cash < INVESTMENT →
      (applyRec fetch today t snpBar st rec).investment
        = st.investment + (INVESTMENT - st.cash) ∧
      (applyRec fetch today t snpBar st rec).cash = 0) := by
  simp only [applyRec, hh, hp, applyPriced, ha]
  rw [if_pos trivial]
  rcases hq : lookupA rec.symbol st.portfolio with _ | q
  · -- the key is created
    by_cases hcash : INVESTMENT ≤ st.cash
    · rw [if_pos hcash]
      refine ⟨?_, fun _ => ⟨rfl, rfl⟩, fun hlt => absurd hcash (not_le.2 hlt)⟩
      rw [lookupA_append, hq]
      simp [lookupA]
    · rw [if_neg hcash]
      refine ⟨?_, fun hle => absurd hle hcash, fun _ => ⟨rfl, rfl⟩⟩
      rcases hsnp : lookupA SnP500 (st.portfolio ++ [(rec.symbol,
          INVESTMENT / price.high)]) with _ | q'
      · rw [lookupA_append, lookupA_append, hq]
        simp [lookupA]
      · rw [lookupA_setA_ne _ _ (Ne.symm hs), lookupA_append, hq]
        simp [lookupA]
  · -- the key exists and is incremented
    by_cases hcash : INVESTMENT ≤ st.cash
    · rw [if_pos hcash]
      refine ⟨?_, fun _ => ⟨rfl, rfl⟩, fun hlt => absurd hcash (not_le.2 hlt)⟩
      rw [lookupA_setA_self]
      simp
    · rw [if_neg hcash]
      refine ⟨?_, fun hle => absurd hle hcash, fun _ => ⟨rfl, rfl⟩⟩
      rcases hsnp : lookupA SnP500 (setA rec.symbol
          (q + INVESTMENT / price.high) st.portfolio) with _ | q'
      · rw [lookupA_append, lookupA_setA_self]
        simp
      · rw [lookupA_setA_ne _ _ (Ne.symm hs), lookupA_setA_self]
        simp

/-- Witness for the amended C1: a shortfall BUY of `"BBB"` from zero cash. -/
theorem buy_accounting_witness :
    (lookupA "BBB"
      (applyRec fetchNil 0 5 bar0
        { portfolio := [("SPY", 0)], history := [("SPY", [(5, bar0)]),
            ("BBB", [(5, bar2)])], cash := 0, investment := 0 }
        ⟨4, "BBB", "BBB Corp", "Buy"⟩).portfolio
      = some ((lookupA "BBB"
          ([("SPY", 0)] : Portfolio)).getD 0 + INVESTMENT / bar2.high)) ∧
    ((INVESTMENT ≤ (0 : ℚ) →
      (applyRec fetchNil 0 5 bar0
        { portfolio := [("SPY", 0)], history := [("SPY", [(5, bar0)]),
            ("BBB", [(5, bar2)])], cash := 0, investment := 0 }
        ⟨4, "BBB", "BBB Corp", "Buy"⟩).cash = 0 - INVESTMENT ∧
      (applyRec fetchNil 0 5 bar0
        { portfolio := [("SPY", 0)], history := [("SPY", [(5, bar0)]),
            ("BBB", [(5, bar2)])], cash := 0, investment := 0 }
        ⟨4, "BBB", "BBB Corp", "Buy"⟩).investment = 0) ∧
    ((0 : ℚ) < INVESTMENT →
      (applyRec fetchNil 0 5 bar0
        { portfolio := [("SPY", 0)], history := [("SPY", [(5, bar0)]),
            ("BBB", [(5, bar2)])], cash := 0, investment := 0 }
        ⟨4, "BBB", "BBB Corp", "Buy"⟩).investment = 0 + (INVESTMENT - 0) ∧
      (applyRec fetchNil 0 5 bar0
        { portfolio := [("SPY", 0)], history := [("SPY", [(5, bar0)]),
            ("BBB", [(5, bar2)])], cash := 0, investment := 0 }
        ⟨4, "BBB", "BBB Corp", "Buy"⟩).cash = 0)) :=
  buy_accounting fetchNil 0 5 bar0
    { portfolio := [("SPY", 0)], history := [("SPY", [(5, bar0)]),
        ("BBB", [(5, bar2)])], cash := 0, investment := 0 }
    ⟨4, "BBB", "BBB Corp", "Buy"⟩ [(5, bar2)] bar2
    (by decide) (by decide) (by decide) (by decide)

/-! ## C3: shortfall funding -/

/-- C3 as stated is false: on a shortfall BUY the code *adds* benchmark
shares (it invests the shortfall into the benchmark), it does not sell
them.  Concretely, with zero cash and benchmark High = 1, a BUY of `"BBB"`
leaves the benchmark position at `0 + 10000/1 = 10000` shares — it grew —
whereas the claim predicts a reduction by `10000/1`, i.e. `-10000`. -/
theorem shortfall_counterexample :
    lookupA "SPY"
      (applyRec fetchNil 0 5 bar0
        { portfolio := [("SPY", 0)], history := [("SPY", [(5, bar0)]),
            ("BBB", [(5, bar0)])], cash := 0, investment := 0 }
        ⟨4, "BBB", "BBB Corp", "buy"⟩).portfolio
      = some 10000 ∧
    (10000 : ℚ) ≠ 0 - (INVESTMENT - 0) / bar0.high := by
  constructor
  · simp only [applyRec, applyPriced, lookupA, setA, fetchNil, bar0,
      SnP500, lower]
    norm_num [INVESTMENT, lookupA, setA]
  · norm_num [INVESTMENT, bar0]

/-- C3 (amended): a shortfall BUY funds the shortfall
`INVESTMENT - cash` by *buying* shares of the benchmark at the benchmark's
High price of the day: the benchmark's share count *increases* by
`(INVESTMENT - cash) / benchmarkHigh`, the shortfall is counted as new
cumulative investment, and cash becomes `0`. -/
theorem shortfall_funding (fetch : String → Date → Date → Hist)
    (today t : Date) (snpBar : PriceBar) (st : SimState)
    (rec : Recommendation) (h : Hist) (price : PriceBar)
    (hs : rec.symbol ≠ SnP500)
    (hh : lookupA rec.symbol st.history = some h)
    (hp : lookupA t h = some price)
    (ha : lower rec.recommendation = "buy")
    (hcash : st.cash < INVESTMENT) :
    lookupA SnP500 (applyRec fetch today t snpBar st rec).portfolio
      = some ((lookupA SnP500 st.portfolio).getD 0
                + (INVESTMENT - st.cash) / snpBar.high) ∧
    (applyRec fetch today t snpBar st rec).investment
      = st.investment + (INVESTMENT - st.cash) ∧
    (applyRec fetch today t snpBar st rec).cash = 0 := by
  simp only [applyRec, hh, hp, applyPriced, ha]
  rw [if_pos trivial, if_neg (not_le.2 hcash)]
  refine ⟨?_, rfl, rfl⟩
  rcases hq : lookupA rec.symbol st.portfolio with _ | q
  · have hsnp1 : lookupA SnP500 (st.portfolio ++ [(rec.symbol,
        INVESTMENT / price.high)]) = lookupA SnP500 st.portfolio := by
      rw [lookupA_append]
      rcases hsp : lookupA SnP500 st.portfolio with _ | q'
      · simp [lookupA, hs]
      · rfl
    rcases hsp : lookupA SnP500 st.portfolio with _ | q'
    · rw [hsnp1, hsp, lookupA_append, hsnp1, hsp]
      simp [lookupA]
    · rw [hsnp1, hsp, lookupA_setA_self]
      simp [hsp]
  · have hsnp1 : lookupA SnP500 (setA rec.symbol
        (q + INVESTMENT / price.high) st.portfolio)
        = lookupA SnP500 st.portfolio :=
      lookupA_setA_ne _ _ hs
    rcases hsp : lookupA SnP500 st.portfolio with _ | q'
    · rw [hsnp1, hsp, lookupA_append, hsnp1, hsp]
      simp [lookupA]
    · rw [hsnp1, hsp, lookupA_setA_self]
      simp [hsp]

/-- Witness for the amended C3: a shortfall BUY of `"BBB"` from zero cash
grows the benchmark position by `(INVESTMENT - 0) / 1`. -/
theorem shortfall_funding_witness :
    lookupA "SPY"
      (applyRec fetchNil 0 5 bar0
        { portfolio := [("SPY", 5)], history := [("SPY", [(5, bar0)]),
            ("BBB", [(5, bar2)])], cash := 0, investment := 0 }
        ⟨4, "BBB", "BBB Corp", "buy"⟩).portfolio
      = some ((lookupA "SPY" ([("SPY", 5)] : Portfolio)).getD 0
                + (INVESTMENT - 0) / bar0.high) ∧
    (applyRec fetchNil 0 5 bar0
        { portfolio := [("SPY", 5)], history := [("SPY", [(5, bar0)]),
            ("BBB", [(5, bar2)])], cash := 0, investment := 0 }
        ⟨4, "BBB", "BBB Corp", "buy"⟩).investment = 0 + (INVESTMENT - 0) ∧
    (applyRec fetchNil 0 5 bar0
        { portfolio := [("SPY", 5)], history := [("SPY", [(5, bar0)]),
            ("BBB", [(5, bar2)])], cash := 0, investment := 0 }
        ⟨4, "BBB", "BBB Corp", "buy"⟩).cash = 0 :=
  shortfall_funding fetchNil 0 5 bar0
    { portfolio := [("SPY", 5)], history := [("SPY", [(5, bar0)]),
        ("BBB", [(5, bar2)])], cash := 0, investment := 0 }
    ⟨4, "BBB", "BBB Corp", "buy"⟩ [(5, bar2)] bar2
    (by decide) (by decide) (by decide) (by decide) (by decide)

/-! ## Run-level plumbing lemmas -/

theorem dayStep_row_date (fetch : String → Date → Date → Hist)
    (today : Date) (month : Date → Nat) (d : Date) (next? : Option Date)
    (bar : PriceBar) (st : SimState) (recs : List Recommendation) :
    ((dayStep fetch today month d next? bar st recs).2.2.2.1).date = d := by
  rcases hpr : processRecs fetch today d bar st recs with ⟨st1, recs1, log⟩
  rcases hv : valuation d st1.history st1.portfolio with ⟨p', f, sn⟩
  simp [dayStep, hpr, hv]

theorem dayStep_history (fetch : String → Date → Date → Hist)
    (today : Date) (month : Date → Nat) (d : Date) (next? : Option Date)
    (bar : PriceBar) (st : SimState) (recs : List Recommendation) :
    (dayStep fetch today month d next? bar st recs).1.history
      = (processRecs fetch today d bar st recs).1.history := by
  rcases hpr : processRecs fetch today d bar st recs with ⟨st1, recs1, log⟩
  rcases hv : valuation d st1.history st1.portfolio with ⟨p', f, sn⟩
  simp [dayStep, hpr, hv]

theorem dayStep_queue (fetch : String → Date → Date → Hist)
    (today : Date) (month : Date → Nat) (d : Date) (next? : Option Date)
    (bar : PriceBar) (st : SimState) (recs : List Recommendation) :
    (dayStep fetch today month d next? bar st recs).2.1
      = (processRecs fetch today d bar st recs).2.1 := by
  rcases hpr : processRecs fetch today d bar st recs with ⟨st1, recs1, log⟩
  rcases hv : valuation d st1.history st1.portfolio with ⟨p', f, sn⟩
  simp [dayStep, hpr, hv]

theorem dayStep_log (fetch : String → Date → Date → Hist)
    (today : Date) (month : Date → Nat) (d : Date) (next? : Option Date)
    (bar : PriceBar) (st : SimState) (recs : List Recommendation) :
    (dayStep fetch today month d next? bar st recs).2.2.1
      = (processRecs fetch today d bar st recs).2.2 := by
  rcases hpr : processRecs fetch today d bar st recs with ⟨st1, recs1, log⟩
  rcases hv : valuation d st1.history st1.portfolio with ⟨p', f, sn⟩
  simp [dayStep, hpr, hv]

theorem dayStep_row_value (fetch : String → Date → Date → Hist)
    (today : Date) (month : Date → Nat) (d : Date) (next? : Option Date)
    (bar : PriceBar) (st : SimState) (recs : List Recommendation) :
    ((dayStep fetch today month d next? bar st recs).2.2.2.1).portfolioValue
      = (dayStep fetch today month d next? bar st recs).1.cash
        + foolValue d (dayStep fetch today month d next? bar st recs).1.history
            (dayStep fetch today month d next? bar st recs).1.portfolio := by
  rcases hpr : processRecs fetch today d bar st recs with ⟨st1, recs1, log⟩
  have h1 := valuation_fool d st1.history st1.portfolio
  have h2 := valuation_portfolio d st1.history st1.portfolio
  rcases hv : valuation d st1.history st1.portfolio with ⟨p', f, sn⟩
  rw [hv] at h1 h2
  simp only at h1 h2
  simp [dayStep, hpr, hv, h1, h2]

theorem runDays_nil (fetch : String → Date → Date → Hist) (today : Date)
    (month : Date → Nat) (st : SimState) (recs : List Recommendation) :
    runDays fetch today month [] st recs = (st, recs, [], [], false) := rfl

theorem runDays_cons_abort (fetch : String → Date → Date → Hist)
    (today : Date) (month : Date → Nat) (d : Date) (bar : PriceBar)
    (rest : List (Date × PriceBar)) (st : SimState)
    (recs : List Recommendation)
    (h : (dayStep fetch today month d ((rest.head?).map Prod.fst) bar
        st recs).2.2.2.2 = true) :
    runDays fetch today month ((d, bar) :: rest) st recs
      = ((dayStep fetch today month d ((rest.head?).map Prod.fst) bar
            st recs).1,
         (dayStep fetch today month d ((rest.head?).map Prod.fst) bar
            st recs).2.1,
         (dayStep fetch today month d ((rest.head?).map Prod.fst) bar
            st recs).2.2.1,
         [(dayStep fetch today month d ((rest.head?).map Prod.fst) bar
            st recs).2.2.2.1], true) := by
  rcases hds : dayStep fetch today month d ((rest.head?).map Prod.fst) bar
      st recs with ⟨st1, recs1, log1, row, ab⟩
  rw [hds] at h
  have hab : ab = true := h
  subst hab
  simp [runDays, hds]

theorem runDays_cons_ok (fetch : String → Date → Date → Hist)
    (today : Date) (month : Date → Nat) (d : Date) (bar : PriceBar)
    (rest : List (Date × PriceBar)) (st : SimState)
    (recs : List Recommendation)
    (h : (dayStep fetch today month d ((rest.head?).map Prod.fst) bar
        st recs).2.2.2.2 = false) :
    runDays fetch today month ((d, bar) :: rest) st recs
      = ((runDays fetch today month rest
            (dayStep fetch today month d ((rest.head?).map Prod.fst) bar
              st recs).1
            (dayStep fetch today month d ((rest.head?).map Prod.fst) bar
              st recs).2.1).1,
         (runDays fetch today month rest
            (dayStep fetch today month d ((rest.head?).map Prod.fst) bar
              st recs).1
            (dayStep fetch today month d ((rest.head?).map Prod.fst) bar
              st recs).2.1).2.1,
         (dayStep fetch today month d ((rest.head?).map Prod.fst) bar
            st recs).2.2.1
           ++ (runDays fetch today month rest
                (dayStep fetch today month d ((rest.head?).map Prod.fst) bar
                  st recs).1
                (dayStep fetch today month d ((rest.head?).map Prod.fst) bar
                  st recs).2.1).2.2.1,
         (dayStep fetch today month d ((rest.head?).map Prod.fst) bar
            st recs).2.2.2.1
           :: (runDays fetch today month rest
                (dayStep fetch today month d ((rest.head?).map Prod.fst) bar
                  st recs).1
                (dayStep fetch today month d ((rest.head?).map Prod.fst) bar
                  st recs).2.1).2.2.2.1,
         (runDays fetch today month rest
            (dayStep fetch today month d ((rest.head?).map Prod.fst) bar
              st recs).1
            (dayStep fetch today month d ((rest.head?).map Prod.fst) bar
              st recs).2.1).2.2.2.2) := by
  rcases hds : dayStep fetch today month d ((rest.head?).map Prod.fst) bar
      st recs with ⟨st1, recs1, log1, row, ab⟩
  rw [hds] at h
  have hab : ab = false := h
  subst hab
  rcases hrd : runDays fetch today month rest st1 recs1 with
    ⟨st2, recs2, log2, rows, ab2⟩
  simp [runDays, hds, hrd]

theorem runDays_rows_length (fetch : String → Date → Date → Hist)
    (today : Date) (month : Date → Nat) :
    ∀ (cal : List (Date × PriceBar)) (st : SimState)
      (recs : List Recommendation),
      (runDays fetch today month cal st recs).2.2.2.2 = false →
      ((runDays fetch today month cal st recs).2.2.2.1).length
        = cal.length := by
  intro cal
  induction cal with
  | nil => intro st recs _; rfl
  | cons e rest ih =>
      intro st recs hsucc
      obtain ⟨d, bar⟩ := e
      cases hab : (dayStep fetch today month d ((rest.head?).map Prod.fst)
          bar st recs).2.2.2.2 with
      | true =>
          rw [runDays_cons_abort fetch today month d bar rest st recs hab]
            at hsucc
          simp at hsucc
      | false =>
          rw [runDays_cons_ok fetch today month d bar rest st recs hab]
            at hsucc ⊢
          simp only [List.length_cons, ih _ _ hsucc]

theorem runDays_rows_dates (fetch : String → Date → Date → Hist)
    (today : Date) (month : Date → Nat) :
    ∀ (cal : List (Date × PriceBar)) (st : SimState)
      (recs : List Recommendation),
      (runDays fetch today month cal st recs).2.2.2.2 = false →
      ((runDays fetch today month cal st recs).2.2.2.1).map OutputRow.date
        = cal.map Prod.fst := by
  intro cal
  induction cal with
  | nil => intro st recs _; rfl
  | cons e rest ih =>
      intro st recs hsucc
      obtain ⟨d, bar⟩ := e
      cases hab : (dayStep fetch today month d ((rest.head?).map Prod.fst)
          bar st recs).2.2.2.2 with
      | true =>
          rw [runDays_cons_abort fetch today month d bar rest st recs hab]
            at hsucc
          simp at hsucc
      | false =>
          rw [runDays_cons_ok fetch today month d bar rest st recs hab]
            at hsucc ⊢
          simp only [List.map_cons,
            dayStep_row_date fetch today month d ((rest.head?).map Prod.fst)
              bar st recs,
            ih _ _ hsucc]

theorem runDays_last (fetch : String → Date → Date → Hist) (today : Date)
    (month : Date → Nat) :
    ∀ (cal : List (Date × PriceBar)) (st : SimState)
      (recs : List Recommendation) (dlast : Date),
      (runDays fetch today month cal st recs).2.2.2.2 = false →
      (cal.map Prod.fst).getLast? = some dlast →
      ∃ r, ((runDays fetch today month cal st recs).2.2.2.1).getLast?
            = some r ∧
        r.date = dlast ∧
        r.portfolioValue
          = (runDays fetch today month cal st recs).1.cash
            + foolValue dlast
                (runDays fetch today month cal st recs).1.history
                (runDays fetch today month cal st recs).1.portfolio := by
  intro cal
  induction cal with
  | nil => intro st recs dlast _ h; simp at h
  | cons e rest ih =>
      intro st recs dlast hsucc h
      obtain ⟨d, bar⟩ := e
      cases hab : (dayStep fetch today month d ((rest.head?).map Prod.fst)
          bar st recs).2.2.2.2 with
      | true =>
          rw [runDays_cons_abort fetch today month d bar rest st recs hab]
            at hsucc
          simp at hsucc
      | false =>
          rw [runDays_cons_ok fetch today month d bar rest st recs hab]
            at hsucc ⊢
          rcases rest with _ | ⟨e', rest'⟩
          · -- single remaining day
            have hdeq : d = dlast := by simpa using h
            subst hdeq
            refine ⟨(dayStep fetch today month d
                ((([] : List (Date × PriceBar)).head?).map Prod.fst) bar
                st recs).2.2.2.1, ?_, ?_, ?_⟩
            · simp [runDays_nil]
            · exact dayStep_row_date fetch today month d _ bar st recs
            · simpa [runDays_nil] using
                dayStep_row_value fetch today month d
                  ((([] : List (Date × PriceBar)).head?).map Prod.fst)
                  bar st recs
          · -- at least two days remain
            obtain ⟨d', bar'⟩ := e'
            have hlast : (((d', bar') :: rest').map Prod.fst).getLast?
                = some dlast := by simpa using h
            obtain ⟨r, hr1, hr2, hr3⟩ :=
              ih (dayStep fetch today month d
                    ((((d', bar') :: rest').head?).map Prod.fst) bar
                    st recs).1
                 (dayStep fetch today month d
                    ((((d', bar') :: rest').head?).map Prod.fst) bar
                    st recs).2.1 dlast hsucc hlast
            have hlen := runDays_rows_length fetch today month
              ((d', bar') :: rest')
              (dayStep fetch today month d
                ((((d', bar') :: rest').head?).map Prod.fst) bar st recs).1
              (dayStep fetch today month d
                ((((d', bar') :: rest').head?).map Prod.fst) bar
                st recs).2.1 hsucc
            have hrows : (runDays fetch today month ((d', bar') :: rest')
                (dayStep fetch today month d
                  ((((d', bar') :: rest').head?).map Prod.fst) bar st recs).1
                (dayStep fetch today month d
                  ((((d', bar') :: rest').head?).map Prod.fst) bar
                  st recs).2.1).2.2.2.1 ≠ [] := by
              intro hnil
              rw [hnil] at hlen
              simp at hlen
            refine ⟨r, ?_, hr2, hr3⟩
            rcases hrw : (runDays fetch today month ((d', bar') :: rest')
                (dayStep fetch today month d
                  ((((d', bar') :: rest').head?).map Prod.fst) bar st recs).1
                (dayStep fetch today month d
                  ((((d', bar') :: rest').head?).map Prod.fst) bar
                  st recs).2.1).2.2.2.1 with _ | ⟨r0, rows'⟩
            · exact absurd hrw hrows
            · rw [hrw] at hr1
              rw [List.getLast?_cons_cons]
              exact hr1

theorem simulate_some (fetch : String → Date → Date → Hist) (today : Date)
    (month : Date → Nat) (recs : List Recommendation) (fd ld : Date)
    (st : SimState) (rows : List OutputRow)
    (h : (simulate_portfolio fetch today month recs fd ld).2
        = some (st, rows)) :
    ∃ recs' log,
      runDays fetch today month (fetch SnP500 fd ld)
        { portfolio := [(SnP500, 0)],
          history := [(SnP500, fetch SnP500 fd ld)],
          cash := 0, investment := 0 } (sortRecs recs fd)
        = (st, recs', log, rows, false) := by
  rcases hrr : runDays fetch today month (fetch SnP500 fd ld)
      { portfolio := [(SnP500, 0)],
        history := [(SnP500, fetch SnP500 fd ld)],
        cash := 0, investment := 0 } (sortRecs recs fd) with
    ⟨st', recs', log, rows', ab⟩
  simp only [simulate_portfolio, hrr] at h
  cases ab with
  | true => simp at h
  | false =>
      simp at h
      obtain ⟨h1, h2⟩ := h
      subst h1; subst h2
      exact ⟨recs', log, rfl⟩

theorem simulate_log (fetch : String → Date → Date → Hist) (today : Date)
    (month : Date → Nat) (recs : List Recommendation) (fd ld : Date) :
    (simulate_portfolio fetch today month recs fd ld).1
      = (runDays fetch today month (fetch SnP500 fd ld)
          { portfolio := [(SnP500, 0)],
            history := [(SnP500, fetch SnP500 fd ld)],
            cash := 0, investment := 0 } (sortRecs recs fd)).2.2.1 := by
  rcases hrr : runDays fetch today month (fetch SnP500 fd ld)
      { portfolio := [(SnP500, 0)],
        history := [(SnP500, fetch SnP500 fd ld)],
        cash := 0, investment := 0 } (sortRecs recs fd) with
    ⟨st', recs', log, rows', ab⟩
  simp [simulate_portfolio, hrr]

theorem simulate_rows_dates (fetch : String → Date → Date → Hist)
    (today : Date) (month : Date → Nat) (recs : List Recommendation)
    (fd ld : Date) (st : SimState) (rows : List OutputRow)
    (h : (simulate_portfolio fetch today month recs fd ld).2
        = some (st, rows)) :
    rows.map OutputRow.date = (fetch SnP500 fd ld).map Prod.fst := by
  obtain ⟨recs', log, hrr⟩ :=
    simulate_some fetch today month recs fd ld st rows h
  have hd := runDays_rows_dates fetch today month (fetch SnP500 fd ld)
    { portfolio := [(SnP500, 0)],
      history := [(SnP500, fetch SnP500 fd ld)],
      cash := 0, investment := 0 } (sortRecs recs fd) (by rw [hrr])
  rw [hrr] at hd
  exact hd

/-! ## C2: one output row per trading day, valued exactly -/

/-- C2: on every completed run (the reporter's `KeyError` abort returns no
output at all, see C9), one `OutputRow` is produced per trading day of the
benchmark's history, carrying exactly the benchmark calendar's dates in
order (hence ascending whenever that calendar is ascending); each day's
row values the portfolio as end-of-day cash plus the sum of
`shareCount * Close` over the open non-benchmark positions that have a bar
for the day; in particular at the final trading day the last row's
`portfolioValue` equals the final cash plus the sum of the open
non-benchmark position values. -/
theorem output_rows (fetch : String → Date → Date → Hist) (today : Date)
    (month : Date → Nat) (recs : List Recommendation) (fd ld : Date) :
    (∀ (st : SimState) (rows : List OutputRow),
      (simulate_portfolio fetch today month recs fd ld).2 = some (st, rows) →
      rows.map OutputRow.date = (fetch SnP500 fd ld).map Prod.fst) ∧
    (((fetch SnP500 fd ld).map Prod.fst).Pairwise (· < ·) →
      ∀ (st : SimState) (rows : List OutputRow),
      (simulate_portfolio fetch today month recs fd ld).2 = some (st, rows) →
      (rows.map OutputRow.date).Pairwise (· < ·)) ∧
    (∀ (d : Date) (next? : Option Date) (bar : PriceBar) (st0 : SimState)
        (pending : List Recommendation),
      ((dayStep fetch today month d next? bar st0
          pending).2.2.2.1).portfolioValue
        = (dayStep fetch today month d next? bar st0 pending).1.cash
          + foolValue d
              (dayStep fetch today month d next? bar st0 pending).1.history
              (dayStep fetch today month d next? bar st0
                pending).1.portfolio) ∧
    (∀ (st : SimState) (rows : List OutputRow) (dlast : Date),
      (simulate_portfolio fetch today month recs fd ld).2 = some (st, rows) →
      ((fetch SnP500 fd ld).map Prod.fst).getLast? = some dlast →
      ∃ r, rows.getLast? = some r ∧ r.date = dlast ∧
        r.portfolioValue
          = st.cash + foolValue dlast st.history st.portfolio) := by
  refine ⟨?_, ?_, ?_, ?_⟩
  · intro st rows h
    exact simulate_rows_dates fetch today month recs fd ld st rows h
  · intro hpw st rows h
    rw [simulate_rows_dates fetch today month recs fd ld st rows h]
    exact hpw
  · intro d next? bar st0 pending
    exact dayStep_row_value fetch today month d next? bar st0 pending
  · intro st rows dlast h hd
    obtain ⟨recs', log, hrr⟩ :=
      simulate_some fetch today month recs fd ld st rows h
    have hl := runDays_last fetch today month (fetch SnP500 fd ld)
      { portfolio := [(SnP500, 0)],
        history := [(SnP500, fetch SnP500 fd ld)],
        cash := 0, investment := 0 } (sortRecs recs fd) dlast (by rw [hrr]) hd
    rw [hrr] at hl
    exact hl

/-- Witness for C2 on a concrete one-day run (one trading day, no
recommendations, no abort). -/
theorem output_rows_witness :
    (∀ (st : SimState) (rows : List OutputRow),
      (simulate_portfolio fetch1 0 monthZero [] 0 9).2 = some (st, rows) →
      rows.map OutputRow.date = (fetch1 SnP500 0 9).map Prod.fst) ∧
    (∀ (st : SimState) (rows : List OutputRow),
      (simulate_portfolio fetch1 0 monthZero [] 0 9).2 = some (st, rows) →
      (rows.map OutputRow.date).Pairwise (· < ·)) ∧
    (∀ (d : Date) (next? : Option Date) (bar : PriceBar) (st0 : SimState)
        (pending : List Recommendation),
      ((dayStep fetch1 0 monthZero d next? bar st0
          pending).2.2.2.1).portfolioValue
        = (dayStep fetch1 0 monthZero d next? bar st0 pending).1.cash
          + foolValue d
              (dayStep fetch1 0 monthZero d next? bar st0 pending).1.history
              (dayStep fetch1 0 monthZero d next? bar st0
                pending).1.portfolio) ∧
    (∀ (st : SimState) (rows : List OutputRow) (dlast : Date),
      (simulate_portfolio fetch1 0 monthZero [] 0 9).2 = some (st, rows) →
      ((fetch1 SnP500 0 9).map Prod.fst).getLast? = some dlast →
      ∃ r, rows.getLast? = some r ∧ r.date = dlast ∧
        r.portfolioValue
          = st.cash + foolValue dlast st.history st.portfolio) :=
  ⟨(output_rows fetch1 0 monthZero [] 0 9).1,
   (output_rows fetch1 0 monthZero [] 0 9).2.1 (by decide),
   (output_rows fetch1 0 monthZero [] 0 9).2.2.1,
   (output_rows fetch1 0 monthZero [] 0 9).2.2.2⟩

/-! ## Recommendation-queue lemmas (for C4) -/

theorem processRecs_queue (fetch : String → Date → Date → Hist)
    (today d : Date) (snpBar : PriceBar) :
    ∀ (st : SimState) (q : List Recommendation),
      (processRecs fetch today d snpBar st q).2.1
        = q.dropWhile (fun r => decide (r.date < d)) ∧
      (processRecs fetch today d snpBar st q).2.2
        = (q.takeWhile (fun r => decide (r.date < d))).map
            (fun r => (d, r)) := by
  intro st q
  induction q generalizing st with
  | nil => exact ⟨rfl, rfl⟩
  | cons r rest ih =>
      by_cases hr : r.date < d
      · rcases hp : processRecs fetch today d snpBar
            (applyRec fetch today d snpBar st r) rest with ⟨st2, q2, log2⟩
        have ih' := ih (applyRec fetch today d snpBar st r)
        rw [hp] at ih'
        have ihq : q2 = rest.dropWhile (fun r => decide (r.date < d)) := ih'.1
        have ihl : log2 = (rest.takeWhile (fun r => decide (r.date < d))).map
            (fun r => (d, r)) := ih'.2
        simp [processRecs, hr, hp, ihq, ihl]
      · simp [processRecs, hr]

theorem map_snd_tag (d : Date) (l : List Recommendation) :
    ((l.map (fun r => (d, r))).map Prod.snd) = l := by
  simp [List.map_map, Function.comp_def]

theorem runDays_log_front (fetch : String → Date → Date → Hist)
    (today : Date) (month : Date → Nat) :
    ∀ (cal : List (Date × PriceBar)) (st : SimState)
      (q : List Recommendation),
      ((runDays fetch today month cal st q).2.2.1).map Prod.snd <+: q := by
  intro cal
  induction cal with
  | nil => intro st q; exact ⟨q, rfl⟩
  | cons e rest ih =>
      intro st q
      obtain ⟨d, bar⟩ := e
      have hq := processRecs_queue fetch today d bar st q
      cases hab : (dayStep fetch today month d ((rest.head?).map Prod.fst)
          bar st q).2.2.2.2 with
      | true =>
          rw [runDays_cons_abort fetch today month d bar rest st q hab]
          refine ⟨q.dropWhile (fun r => decide (r.date < d)), ?_⟩
          rw [dayStep_log, hq.2, map_snd_tag, List.takeWhile_append_dropWhile]
      | false =>
          rw [runDays_cons_ok fetch today month d bar rest st q hab]
          obtain ⟨t2, ht2⟩ := ih
            (dayStep fetch today month d ((rest.head?).map Prod.fst) bar
              st q).1
            (dayStep fetch today month d ((rest.head?).map Prod.fst) bar
              st q).2.1
          refine ⟨t2, ?_⟩
          rw [dayStep_queue, hq.1] at ht2
          simp only [List.map_append, dayStep_log, dayStep_queue, hq.1, hq.2]
          rw [List.append_assoc, ht2, map_snd_tag,
            List.takeWhile_append_dropWhile]

theorem dropWhile_date_ge (d : Date) :
    ∀ (q : List Recommendation),
      q.Pairwise (fun a b => a.date ≤ b.date) →
      ∀ r ∈ q.dropWhile (fun x => decide (x.date < d)), ¬ r.date < d := by
  intro q
  induction q with
  | nil => intro _ r hr; simp at hr
  | cons x xs ih =>
      intro hpw r hr
      by_cases hx : x.date < d
      · rw [List.dropWhile_cons_of_pos (by simpa using hx)] at hr
        exact ih (List.Pairwise.sublist (List.sublist_cons_self _ _) hpw) r hr
      · rw [List.dropWhile_cons_of_neg (by simpa using hx)] at hr
        rcases List.mem_cons.1 hr with h | h
        · subst h; exact hx
        · have hle : x.date ≤ r.date := (List.pairwise_cons.1 hpw).1 r h
          exact fun hlt => hx (lt_of_le_of_lt hle hlt)

theorem runDays_log_timing (fetch : String → Date → Date → Hist)
    (today : Date) (month : Date → Nat) :
    ∀ (cal : List (Date × PriceBar)) (st : SimState)
      (q : List Recommendation),
      (cal.map Prod.fst).Pairwise (· < ·) →
      q.Pairwise (fun a b => a.date ≤ b.date) →
      ∀ t r, (t, r) ∈ (runDays fetch today month cal st q).2.2.1 →
        r.date < t ∧ t ∈ cal.map Prod.fst ∧
          ∀ d' ∈ cal.map Prod.fst, r.date < d' → t ≤ d' := by
  intro cal
  induction cal with
  | nil => intro st q _ _ t r hmem; simp [runDays_nil] at hmem
  | cons e rest ih =>
      intro st q hcal hq t r hmem
      obtain ⟨d, bar⟩ := e
      have hqc := processRecs_queue fetch today d bar st q
      cases hab : (dayStep fetch today month d ((rest.head?).map Prod.fst)
          bar st q).2.2.2.2 with
      | true =>
          rw [runDays_cons_abort fetch today month d bar rest st q hab]
            at hmem
          rw [dayStep_log, hqc.2] at hmem
          obtain ⟨r', hr', heq⟩ := List.mem_map.1 hmem
          have ht : t = d := (Prod.mk.inj heq).1.symm
          have hr'' : r = r' := (Prod.mk.inj heq).2.symm
          subst ht
          subst hr''
          have hlt : r.date < t := by
            simpa using List.mem_takeWhile_imp hr'
          refine ⟨hlt, List.mem_cons_self _ _, ?_⟩
          intro d' hd' _
          rcases List.mem_cons.1 hd' with h | h
          · exact le_of_eq h.symm
          · exact le_of_lt ((List.pairwise_cons.1 hcal).1 d' h)
      | false =>
          rw [runDays_cons_ok fetch today month d bar rest st q hab] at hmem
          rcases List.mem_append.1 hmem with hmem | hmem
          · -- popped on this very day
            rw [dayStep_log, hqc.2] at hmem
            obtain ⟨r', hr', heq⟩ := List.mem_map.1 hmem
            have ht : t = d := (Prod.mk.inj heq).1.symm
            have hr'' : r = r' := (Prod.mk.inj heq).2.symm
            subst ht
            subst hr''
            have hlt : r.date < t := by
              simpa using List.mem_takeWhile_imp hr'
            refine ⟨hlt, List.mem_cons_self _ _, ?_⟩
            intro d' hd' _
            rcases List.mem_cons.1 hd' with h | h
            · exact le_of_eq h.symm
            · exact le_of_lt ((List.pairwise_cons.1 hcal).1 d' h)
          · -- popped on a later day
            rw [dayStep_queue, hqc.1] at hmem
            have hq' : (q.dropWhile (fun x => decide (x.date < d))).Pairwise
                (fun a b => a.date ≤ b.date) :=
              List.Pairwise.sublist (List.dropWhile_sublist _) hq
            have hrest : (rest.map Prod.fst).Pairwise (· < ·) :=
              (List.pairwise_cons.1 hcal).2
            obtain ⟨h1, h2, h3⟩ := ih _ _ hrest hq' t r hmem
            refine ⟨h1, List.mem_cons_of_mem _ h2, ?_⟩
            intro d' hd' hrd'
            rcases List.mem_cons.1 hd' with h | h
            · -- d' is this day: but r survived this day's popping
              have hrd2 : r.date < d := by rw [h] at hrd'; exact hrd'
              have hr_in_q : r ∈ q.dropWhile (fun x => decide (x.date < d)) := by
                have hpre := runDays_log_front fetch today month rest
                  (dayStep fetch today month d ((rest.head?).map Prod.fst)
                    bar st q).1
                  (dayStep fetch today month d ((rest.head?).map Prod.fst)
                    bar st q).2.1
                rw [dayStep_queue, hqc.1] at hpre
                exact hpre.sublist.subset
                  (List.mem_map_of_mem Prod.snd hmem)
              exact absurd hrd2 (dropWhile_date_ge d q hq r hr_in_q)
            · exact h3 d' h hrd'

theorem sortRecs_sorted (recs : List Recommendation) (fd : Date) :
    (sortRecs recs fd).Pairwise (fun a b => a.date ≤ b.date) := by
  have hs := @List.sorted_mergeSort Recommendation
    (fun a b => decide (b.date ≤ a.date))
    (fun a b c hab hbc => by
      simp only [decide_eq_true_eq] at *
      exact le_trans hbc hab)
    (fun a b => by
      simpa using Nat.le_total b.date a.date)
    (recs.filter (fun x => decide (fd < x.date)))
  rw [sortRecs, List.pairwise_reverse]
  exact hs.imp (fun h => by simpa using h)

theorem sortRecs_mem (recs : List Recommendation) (fd : Date) :
    ∀ r ∈ sortRecs recs fd, fd < r.date := by
  intro r hr
  rw [sortRecs, List.mem_reverse] at hr
  have := (List.mergeSort_perm _ _).subset hr
  simpa using (List.mem_filter.1 this).2

theorem sortRecs_count (recs : List Recommendation) (fd : Date)
    (r : Recommendation) :
    (sortRecs recs fd).count r ≤ recs.count r := by
  rw [sortRecs, List.count_reverse,
    (List.mergeSort_perm _ _).count_eq]
  exact List.Sublist.count_le (List.filter_sublist _) r

/-! ## C4: filtering and application timing -/

/-- C4: over any run whose benchmark calendar is strictly ascending, every
popped (hence every applied) recommendation is dated strictly after
`first_date`; it is popped on a benchmark trading day strictly after its
own date, and on the earliest such day; and no recommendation is popped
more often than it occurs in the input list.  These hold whether or not
the run later aborts in the month-end reporter: the popped log is the
console trace, which is emitted either way. -/
theorem recommendation_timing (fetch : String → Date → Date → Hist)
    (today : Date) (month : Date → Nat) (recs : List Recommendation)
    (fd ld : Date)
    (hcal : ((fetch SnP500 fd ld).map Prod.fst).Pairwise (· < ·)) :
    (∀ t r, (t, r) ∈ (simulate_portfolio fetch today month recs fd ld).1 →
      fd < r.date ∧ r.date < t ∧
      t ∈ (fetch SnP500 fd ld).map Prod.fst ∧
      ∀ d' ∈ (fetch SnP500 fd ld).map Prod.fst, r.date < d' → t ≤ d') ∧
    (∀ r : Recommendation,
      (((simulate_portfolio fetch today month recs fd ld).1).map
          Prod.snd).count r ≤ recs.count r) := by
  have hpre := runDays_log_front fetch today month (fetch SnP500 fd ld)
    { portfolio := [(SnP500, 0)], history := [(SnP500, fetch SnP500 fd ld)],
      cash := 0, investment := 0 } (sortRecs recs fd)
  have htim := runDays_log_timing fetch today month (fetch SnP500 fd ld)
    { portfolio := [(SnP500, 0)], history := [(SnP500, fetch SnP500 fd ld)],
      cash := 0, investment := 0 } (sortRecs recs fd) hcal
    (sortRecs_sorted recs fd)
  rw [simulate_log fetch today month recs fd ld]
  constructor
  · intro t r hmem
    have hrq : r ∈ sortRecs recs fd :=
      hpre.sublist.subset (List.mem_map_of_mem Prod.snd hmem)
    obtain ⟨h1, h2, h3⟩ := htim t r hmem
    exact ⟨sortRecs_mem recs fd r hrq, h1, h2, h3⟩
  · intro r
    calc (((runDays fetch today month (fetch SnP500 fd ld)
            { portfolio := [(SnP500, 0)],
              history := [(SnP500, fetch SnP500 fd ld)],
              cash := 0, investment := 0 }
            (sortRecs recs fd)).2.2.1).map Prod.snd).count r
        ≤ (sortRecs recs fd).count r := hpre.count_le r
      _ ≤ recs.count r := sortRecs_count recs fd r

/-- Witness for C4 on a concrete two-day run with one recommendation. -/
theorem recommendation_timing_witness :
    (∀ t r, (t, r) ∈ (simulate_portfolio fetch2 0 monthZero
        [⟨2, "AAA", "AAA Corp", "hold"⟩] 0 9).1 →
      0 < r.date ∧ r.date < t ∧
      t ∈ (fetch2 SnP500 0 9).map Prod.fst ∧
      ∀ d' ∈ (fetch2 SnP500 0 9).map Prod.fst, r.date < d' → t ≤ d') ∧
    (∀ r : Recommendation,
      (((simulate_portfolio fetch2 0 monthZero
          [⟨2, "AAA", "AAA Corp", "hold"⟩] 0 9).1).map
          Prod.snd).count r
        ≤ ([⟨2, "AAA", "AAA Corp", "hold"⟩] :
            List Recommendation).count r) :=
  recommendation_timing fetch2 0 monthZero
    [⟨2, "AAA", "AAA Corp", "hold"⟩] 0 9 (by decide)

/-! ## Invariant preservation lemmas (for C8 and C10) -/

theorem applyPriced_history (snpBar : PriceBar) (st : SimState)
    (rec : Recommendation) (price : PriceBar) :
    (applyPriced snpBar st rec price).history = st.history := by
  by_cases hb : lower rec.recommendation = "buy"
  · simp only [applyPriced, hb, if_pos]
    split_ifs <;> rfl
  · by_cases hs : lower rec.recommendation = "sell"
    · simp only [applyPriced, hb, hs, if_neg, if_pos]
      cases lookupA rec.symbol st.portfolio <;> rfl
    · by_cases hr : lower rec.recommendation = "reduce"
      · simp only [applyPriced, hb, hs, hr, if_neg, if_pos]
        cases lookupA rec.symbol st.portfolio <;> rfl
      · simp [applyPriced, hb, hs, hr]

/-- The `portfolio[symbol] += shares` / create-key update (both the bought
symbol and the benchmark shortfall purchase have this shape), adding a
positive share count, preserves the open-position invariant. -/
theorem addShares_openInv (p : Portfolio) (sym : String) (v : ℚ)
    (hv : 0 < v) (hP : openInv p) :
    openInv (match lookupA sym p with
             | none => p ++ [(sym, v)]
             | some q => setA sym (q + v) p) := by
  rcases hq : lookupA sym p with _ | q
  · intro s q hmem
    rcases mem_append_singleton hmem with h | h
    · exact hP s q h
    · obtain ⟨h1, h2⟩ := Prod.mk.inj h
      subst h1; subst h2
      exact ⟨fun _ => hv, le_of_lt hv⟩
  · intro s q' hmem
    rcases mem_setA hmem with h | h
    · obtain ⟨h1, h2⟩ := Prod.mk.inj h
      subst h1; subst h2
      have hq0 := hP s q (lookupA_some_mem hq)
      exact ⟨fun _ => add_pos_of_nonneg_of_pos hq0.2 hv,
        add_nonneg hq0.2 (le_of_lt hv)⟩
    · exact hP s q' h

theorem eraseA_openInv (p : Portfolio) (k : String) (hP : openInv p) :
    openInv (eraseA k p) :=
  fun s q hmem => hP s q (mem_eraseA hmem)

theorem reduce_openInv (p : Portfolio) (sym : String) (q : ℚ)
    (hq : lookupA sym p = some q) (hP : openInv p) :
    openInv (setA sym (q - (⌊q / 2⌋ : ℚ)) p) := by
  intro s q' hmem
  have hfl : (⌊q / 2⌋ : ℚ) ≤ q / 2 := Int.floor_le _
  have hq0 := hP sym q (lookupA_some_mem hq)
  rcases mem_setA hmem with h | h
  · obtain ⟨h1, h2⟩ := Prod.mk.inj h
    subst h1; subst h2
    constructor
    · intro hs
      have hpos : 0 < q := hq0.1 hs
      have : (⌊q / 2⌋ : ℚ) < q := lt_of_le_of_lt hfl (half_lt_self hpos)
      exact sub_pos.2 this
    · have : (⌊q / 2⌋ : ℚ) ≤ q := le_trans hfl (half_le_self hq0.2)
      exact sub_nonneg.2 this
  · exact hP s q' h

theorem applyPriced_openInv (snpBar : PriceBar) (st : SimState)
    (rec : Recommendation) (price : PriceBar)
    (hq : 0 < price.high) (hsnp : 0 < snpBar.high)
    (hP : openInv st.portfolio) :
    openInv (applyPriced snpBar st rec price).portfolio := by
  have hINV : (0:ℚ) < INVESTMENT := by norm_num [INVESTMENT]
  by_cases hb : lower rec.recommendation = "buy"
  · simp only [applyPriced, hb, if_pos]
    have h1 : openInv
        (match lookupA rec.symbol st.portfolio with
         | none => st.portfolio ++ [(rec.symbol, INVESTMENT / price.high)]
         | some q => setA rec.symbol (q + INVESTMENT / price.high)
             st.portfolio) :=
      addShares_openInv st.portfolio rec.symbol _ (div_pos hINV hq) hP
    by_cases hc : INVESTMENT ≤ st.cash
    · rw [if_pos hc]
      exact h1
    · rw [if_neg hc]
      exact addShares_openInv _ SnP500 _
        (div_pos (sub_pos.2 (lt_of_not_le hc)) hsnp) h1
  · by_cases hs : lower rec.recommendation = "sell"
    · simp only [applyPriced, hb, hs, if_neg, if_pos]
      rcases hq' : lookupA rec.symbol st.portfolio with _ | n
      · simpa [hq'] using hP
      · simp only [hq']
        exact eraseA_openInv st.portfolio rec.symbol hP
    · by_cases hr : lower rec.recommendation = "reduce"
      · simp only [applyPriced, hb, hs, hr, if_neg, if_pos]
        rcases hq' : lookupA rec.symbol st.portfolio with _ | n
        · simpa [hq'] using hP
        · simp only [hq']
          exact reduce_openInv st.portfolio rec.symbol n hq' hP
      · simpa [applyPriced, hb, hs, hr] using hP

theorem applyRec_openInv (fetch : String → Date → Date → Hist)
    (today d : Date) (snpBar : PriceBar) (st : SimState)
    (rec : Recommendation)
    (hf : fetchBars posHighBar fetch)
    (hh : histBars posHighBar st.history)
    (hsnp : 0 < snpBar.high)
    (hP : openInv st.portfolio) :
    histBars posHighBar (applyRec fetch today d snpBar st rec).history ∧
    openInv (applyRec fetch today d snpBar st rec).portfolio := by
  rcases hlh : lookupA rec.symbol st.history with _ | h
  · by_cases he : fetch rec.symbol d today = []
    · simp only [applyRec, hlh]
      rw [if_pos he]
      exact ⟨hh, hP⟩
    · have hh' : histBars posHighBar
          (setA rec.symbol (fetch rec.symbol d today) st.history) := by
        intro s hs hmem d' b hb
        rcases mem_setA hmem with hcase | hcase
        · obtain ⟨h1, h2⟩ := Prod.mk.inj hcase
          exact hf rec.symbol d today d' b (h2 ▸ hb)
        · exact hh s hs hcase d' b hb
      simp only [applyRec, hlh]
      rw [if_neg he]
      rcases hbar : lookupA d (fetch rec.symbol d today) with _ | price
      · exact ⟨hh', hP⟩
      · have hpr : posHighBar price :=
          hf rec.symbol d today d price (lookupA_some_mem hbar)
        constructor
        · rw [applyPriced_history]
          exact hh'
        · exact applyPriced_openInv snpBar _ rec price hpr hsnp hP
  · rcases hbar : lookupA d h with _ | price
    · simp only [applyRec, hlh, hbar]
      exact ⟨hh, hP⟩
    · simp only [applyRec, hlh, hbar]
      have hpr : posHighBar price :=
        hh rec.symbol h (lookupA_some_mem hlh) d price (lookupA_some_mem hbar)
      constructor
      · rw [applyPriced_history]
        exact hh
      · exact applyPriced_openInv snpBar st rec price hpr hsnp hP

theorem processRecs_openInv (fetch : String → Date → Date → Hist)
    (today d : Date) (snpBar : PriceBar)
    (hf : fetchBars posHighBar fetch) (hsnp : 0 < snpBar.high) :
    ∀ (q : List Recommendation) (st : SimState),
      histBars posHighBar st.history → openInv st.portfolio →
      histBars posHighBar
        (processRecs fetch today d snpBar st q).1.history ∧
      openInv (processRecs fetch today d snpBar st q).1.portfolio := by
  intro q
  induction q with
  | nil => intro st hh hP; exact ⟨hh, hP⟩
  | cons r rest ih =>
      intro st hh hP
      by_cases hr : r.date < d
      · have ha := applyRec_openInv fetch today d snpBar st r hf hh hsnp hP
        have ih' := ih (applyRec fetch today d snpBar st r) ha.1 ha.2
        rcases hp : processRecs fetch today d snpBar
            (applyRec fetch today d snpBar st r) rest with ⟨st2, q2, log2⟩
        rw [hp] at ih'
        simp only [processRecs, if_pos hr, hp]
        exact ih'
      · simp only [processRecs, if_neg hr]
        exact ⟨hh, hP⟩

theorem valuation_openInv (d : Date) (hist : Histories) (p : Portfolio)
    (hP : openInv p) : openInv (valuation d hist p).1 := by
  rw [valuation_portfolio]
  intro s q hmem
  obtain ⟨⟨s0, q0⟩, hm0, heq⟩ := List.mem_map.1 hmem
  have hP0 := hP s0 q0 hm0
  rcases hb : barFor d hist s0 with _ | pr
  · simp only [specAccrue, hb] at heq
    obtain ⟨h1, h2⟩ := Prod.mk.inj heq
    subst h1; subst h2
    exact hP0
  · by_cases hdiv : 0 < pr.dividends
    · simp [specAccrue, hb, hdiv] at heq
      obtain ⟨h1, h2⟩ := heq
      subst h1; subst h2
      have hm : (0:ℚ) < 1 + pr.dividends / 100 :=
        add_pos one_pos (div_pos hdiv (by norm_num))
      exact ⟨fun hs => mul_pos (hP0.1 hs) hm,
        mul_nonneg hP0.2 (le_of_lt hm)⟩
    · simp [specAccrue, hb, hdiv] at heq
      obtain ⟨h1, h2⟩ := heq
      subst h1; subst h2
      exact hP0

theorem dayStep_openInv (fetch : String → Date → Date → Hist)
    (today : Date) (month : Date → Nat) (d : Date) (next? : Option Date)
    (bar : PriceBar) (st : SimState) (recs : List Recommendation)
    (hf : fetchBars posHighBar fetch) (hsnp : 0 < bar.high)
    (hh : histBars posHighBar st.history) (hP : openInv st.portfolio) :
    histBars posHighBar
      (dayStep fetch today month d next? bar st recs).1.history ∧
    openInv (dayStep fetch today month d next? bar st recs).1.portfolio := by
  have hinv := processRecs_openInv fetch today d bar hf hsnp recs st hh hP
  rcases hpr : processRecs fetch today d bar st recs with ⟨st1, recs1, log⟩
  rw [hpr] at hinv
  have hval := valuation_openInv d st1.history st1.portfolio hinv.2
  rcases hv : valuation d st1.history st1.portfolio with ⟨p', f, sn⟩
  rw [hv] at hval
  simp only [dayStep, hpr, hv]
  exact ⟨hinv.1, hval⟩

theorem runDays_openInv (fetch : String → Date → Date → Hist)
    (today : Date) (month : Date → Nat)
    (hf : fetchBars posHighBar fetch) :
    ∀ (cal : List (Date × PriceBar)) (st : SimState)
      (recs : List Recommendation),
      (∀ e ∈ cal, 0 < (Prod.snd e).high) →
      histBars posHighBar st.history → openInv st.portfolio →
      histBars posHighBar (runDays fetch today month cal st recs).1.history ∧
      openInv (runDays fetch today month cal st recs).1.portfolio := by
  intro cal
  induction cal with
  | nil => intro st recs _ hh hP; exact ⟨hh, hP⟩
  | cons e rest ih =>
      intro st recs hcal hh hP
      obtain ⟨d, bar⟩ := e
      have hbar : 0 < bar.high := hcal (d, bar) (List.mem_cons_self _ _)
      have hds := dayStep_openInv fetch today month d
        ((rest.head?).map Prod.fst) bar st recs hf hbar hh hP
      cases hab : (dayStep fetch today month d ((rest.head?).map Prod.fst)
          bar st recs).2.2.2.2 with
      | true =>
          rw [runDays_cons_abort fetch today month d bar rest st recs hab]
          exact hds
      | false =>
          rw [runDays_cons_ok fetch today month d bar rest st recs hab]
          exact ih (dayStep fetch today month d ((rest.head?).map Prod.fst)
              bar st recs).1
            (dayStep fetch today month d ((rest.head?).map Prod.fst) bar
              st recs).2.1
            (fun e he => hcal e (List.mem_cons_of_mem _ he)) hds.1 hds.2

/-! ## C8: open-position invariant -/

/-- C8 as stated is false at initialization (and from then on): the source
sets `portfolio[SnP500] = 0` before the day loop, so the benchmark's key is
present while its holding is zero.  Concretely, a run with no
recommendations and an empty benchmark calendar completes and ends with
the benchmark key mapping to `0` shares. -/
theorem open_positions_counterexample :
    (simulate_portfolio fetchNil 0 monthZero [] 0 9).2
      = some ({ portfolio := [(SnP500, 0)], history := [(SnP500, [])],
                cash := 0, investment := 0 }, []) ∧
    lookupA SnP500 [(SnP500, (0 : ℚ))] = some 0 := by
  constructor
  · simp [simulate_portfolio, fetchNil, runDays, sortRecs, SnP500]
  · simp [lookupA]

/-- C8 (amended): assuming every bar the provider returns has a positive
High price, every *non-benchmark* key of the positions mapping holds a
strictly positive share count at every point of a run — after
initialization, after each applied recommendation, after each simulated
day, and in the final state of every completed run — while the
benchmark's key holds a non-negative count and may legitimately be zero
(it starts at zero). -/
theorem open_positions (fetch : String → Date → Date → Hist) (today : Date)
    (month : Date → Nat) (recs : List Recommendation) (fd ld : Date)
    (hf : fetchBars posHighBar fetch) :
    openInv ([(SnP500, 0)] : Portfolio) ∧
    (∀ (d : Date) (snpBar : PriceBar) (st : SimState)
        (rec : Recommendation),
      0 < snpBar.high → histBars posHighBar st.history →
      openInv st.portfolio →
      openInv (applyRec fetch today d snpBar st rec).portfolio) ∧
    (∀ (d : Date) (next? : Option Date) (bar : PriceBar) (st : SimState)
        (pending : List Recommendation),
      0 < bar.high → histBars posHighBar st.history →
      openInv st.portfolio →
      openInv (dayStep fetch today month d next? bar st pending).1.portfolio) ∧
    (∀ (st : SimState) (rows : List OutputRow),
      (simulate_portfolio fetch today month recs fd ld).2 = some (st, rows) →
      openInv st.portfolio) := by
  have hinit : openInv ([(SnP500, 0)] : Portfolio) := by
    intro s q hmem
    rcases List.mem_singleton.1 hmem with h
    obtain ⟨h1, h2⟩ := Prod.mk.inj h
    subst h1; subst h2
    exact ⟨fun hs => absurd rfl hs, le_refl 0⟩
  refine ⟨hinit, ?_, ?_, ?_⟩
  · intro d snpBar st rec hsnp hh hP
    exact (applyRec_openInv fetch today d snpBar st rec hf hh hsnp hP).2
  · intro d next? bar st pending hbar hh hP
    exact (dayStep_openInv fetch today month d next? bar st pending
      hf hbar hh hP).2
  · intro st rows hsome
    obtain ⟨recs', log, hrr⟩ :=
      simulate_some fetch today month recs fd ld st rows hsome
    have hh0 : histBars posHighBar [(SnP500, fetch SnP500 fd ld)] := by
      intro s hs hmem d b hb
      rcases List.mem_singleton.1 hmem with h
      obtain ⟨h1, h2⟩ := Prod.mk.inj h
      exact hf SnP500 fd ld d b (h2 ▸ hb)
    have hcal : ∀ e ∈ fetch SnP500 fd ld, 0 < (Prod.snd e).high :=
      fun e he => hf SnP500 fd ld e.1 e.2 (by simpa using he)
    have hrun := runDays_openInv fetch today month hf (fetch SnP500 fd ld)
      { portfolio := [(SnP500, 0)],
        history := [(SnP500, fetch SnP500 fd ld)],
        cash := 0, investment := 0 } (sortRecs recs fd) hcal hh0 hinit
    rw [hrr] at hrun
    exact hrun.2

/-- Witness for the amended C8 on the one-day provider. -/
theorem open_positions_witness :
    openInv ([(SnP500, 0)] : Portfolio) ∧
    (∀ (d : Date) (snpBar : PriceBar) (st : SimState)
        (rec : Recommendation),
      0 < snpBar.high → histBars posHighBar st.history →
      openInv st.portfolio →
      openInv (applyRec fetch1 0 d snpBar st rec).portfolio) ∧
    (∀ (d : Date) (next? : Option Date) (bar : PriceBar) (st : SimState)
        (pending : List Recommendation),
      0 < bar.high → histBars posHighBar st.history →
      openInv st.portfolio →
      openInv (dayStep fetch1 0 monthZero d next? bar st pending).1.portfolio) ∧
    (∀ (st : SimState) (rows : List OutputRow),
      (simulate_portfolio fetch1 0 monthZero [] 0 9).2 = some (st, rows) →
      openInv st.portfolio) :=
  open_positions fetch1 0 monthZero [] 0 9
    (fun s d₁ d₂ d b hb => by
      simp only [fetch1, List.mem_singleton] at hb
      obtain ⟨h1, h2⟩ := Prod.mk.inj hb
      rw [h2]
      exact (by decide : (0:ℚ) < bar0.high))

theorem addShares_nonneg (p : Portfolio) (sym : String) (v : ℚ)
    (hv : 0 ≤ v) (hP : nonnegShares p) :
    nonnegShares (match lookupA sym p with
                  | none => p ++ [(sym, v)]
                  | some q => setA sym (q + v) p) := by
  rcases hq : lookupA sym p with _ | q
  · intro s q hmem
    rcases mem_append_singleton hmem with h | h
    · exact hP s q h
    · obtain ⟨h1, h2⟩ := Prod.mk.inj h
      subst h1; subst h2
      exact hv
  · intro s q' hmem
    rcases mem_setA hmem with h | h
    · obtain ⟨h1, h2⟩ := Prod.mk.inj h
      subst h1; subst h2
      exact add_nonneg (hP s q (lookupA_some_mem hq)) hv
    · exact hP s q' h

theorem applyPriced_nonneg (snpBar : PriceBar) (st : SimState)
    (rec : Recommendation) (price : PriceBar)
    (hq : 0 ≤ price.high) (hlow : 0 ≤ price.low) (hsnp : 0 ≤ snpBar.high)
    (hc : 0 ≤ st.cash) (hP : nonnegShares st.portfolio) :
    0 ≤ (applyPriced snpBar st rec price).cash ∧
    nonnegShares (applyPriced snpBar st rec price).portfolio := by
  have hINV : (0:ℚ) ≤ INVESTMENT := by norm_num [INVESTMENT]
  by_cases hb : lower rec.recommendation = "buy"
  · simp only [applyPriced, hb, if_pos]
    have h1 : nonnegShares
        (match lookupA rec.symbol st.portfolio with
         | none => st.portfolio ++ [(rec.symbol, INVESTMENT / price.high)]
         | some q => setA rec.symbol (q + INVESTMENT / price.high)
             st.portfolio) :=
      addShares_nonneg st.portfolio rec.symbol _ (div_nonneg hINV hq) hP
    by_cases hcash : INVESTMENT ≤ st.cash
    · rw [if_pos hcash]
      exact ⟨sub_nonneg.2 hcash, h1⟩
    · rw [if_neg hcash]
      refine ⟨le_refl 0, ?_⟩
      exact addShares_nonneg _ SnP500 _
        (div_nonneg (sub_nonneg.2 (le_of_lt (lt_of_not_le hcash))) hsnp) h1
  · by_cases hs : lower rec.recommendation = "sell"
    · simp only [applyPriced, hb, hs, if_neg, if_pos]
      rcases hq' : lookupA rec.symbol st.portfolio with _ | n
      · exact ⟨hc, hP⟩
      · refine ⟨add_nonneg hc
          (mul_nonneg (hP rec.symbol n (lookupA_some_mem hq')) hlow), ?_⟩
        exact fun s q hmem => hP s q (mem_eraseA hmem)
    · by_cases hr : lower rec.recommendation = "reduce"
      · simp only [applyPriced, hb, hs, hr, if_neg, if_pos]
        rcases hq' : lookupA rec.symbol st.portfolio with _ | n
        · exact ⟨hc, hP⟩
        · have hn : 0 ≤ n := hP rec.symbol n (lookupA_some_mem hq')
          have hfl : (0:ℚ) ≤ (⌊n / 2⌋ : ℚ) := by
            have : (0:ℤ) ≤ ⌊n / 2⌋ :=
              Int.floor_nonneg.2 (by positivity)
            exact_mod_cast this
          have hfl2 : (⌊n / 2⌋ : ℚ) ≤ n :=
            le_trans (Int.floor_le _) (half_le_self hn)
          refine ⟨add_nonneg hc (mul_nonneg hfl hlow), ?_⟩
          intro s q hmem
          rcases mem_setA hmem with h | h
          · obtain ⟨h1, h2⟩ := Prod.mk.inj h
            subst h1; subst h2
            exact sub_nonneg.2 hfl2
          · exact hP s q h
      · simpa [applyPriced, hb, hs, hr] using ⟨hc, hP⟩

theorem applyRec_nonneg (fetch : String → Date → Date → Hist)
    (today d : Date) (snpBar : PriceBar) (st : SimState)
    (rec : Recommendation)
    (hf : fetchBars nonnegBar fetch)
    (hh : histBars nonnegBar st.history)
    (hsnp : nonnegBar snpBar)
    (hc : 0 ≤ st.cash) (hP : nonnegShares st.portfolio) :
    histBars nonnegBar (applyRec fetch today d snpBar st rec).history ∧
    0 ≤ (applyRec fetch today d snpBar st rec).cash ∧
    nonnegShares (applyRec fetch today d snpBar st rec).portfolio := by
  rcases hlh : lookupA rec.symbol st.history with _ | h
  · by_cases he : fetch rec.symbol d today = []
    · simp only [applyRec, hlh]
      rw [if_pos he]
      exact ⟨hh, hc, hP⟩
    · have hh' : histBars nonnegBar
          (setA rec.symbol (fetch rec.symbol d today) st.history) := by
        intro s hs hmem d' b hb
        rcases mem_setA hmem with hcase | hcase
        · obtain ⟨h1, h2⟩ := Prod.mk.inj hcase
          exact hf rec.symbol d today d' b (h2 ▸ hb)
        · exact hh s hs hcase d' b hb
      simp only [applyRec, hlh]
      rw [if_neg he]
      rcases hbar : lookupA d (fetch rec.symbol d today) with _ | price
      · exact ⟨hh', hc, hP⟩
      · have hpr : nonnegBar price :=
          hf rec.symbol d today d price (lookupA_some_mem hbar)
        have := applyPriced_nonneg snpBar
          { st with history :=
              (setA rec.symbol (fetch rec.symbol d today) st.history) }
          rec price hpr.1 hpr.2 hsnp.1 hc hP
        exact ⟨by rw [applyPriced_history]; exact hh', this.1, this.2⟩
  · rcases hbar : lookupA d h with _ | price
    · simp only [applyRec, hlh, hbar]
      exact ⟨hh, hc, hP⟩
    · simp only [applyRec, hlh, hbar]
      have hpr : nonnegBar price :=
        hh rec.symbol h (lookupA_some_mem hlh) d price (lookupA_some_mem hbar)
      have := applyPriced_nonneg snpBar st rec price hpr.1 hpr.2 hsnp.1 hc hP
      exact ⟨by rw [applyPriced_history]; exact hh, this.1, this.2⟩

theorem processRecs_nonneg (fetch : String → Date → Date → Hist)
    (today d : Date) (snpBar : PriceBar)
    (hf : fetchBars nonnegBar fetch) (hsnp : nonnegBar snpBar) :
    ∀ (q : List Recommendation) (st : SimState),
      histBars nonnegBar st.history → 0 ≤ st.cash →
      nonnegShares st.portfolio →
      histBars nonnegBar
        (processRecs fetch today d snpBar st q).1.history ∧
      0 ≤ (processRecs fetch today d snpBar st q).1.cash ∧
      nonnegShares (processRecs fetch today d snpBar st q).1.portfolio := by
  intro q
  induction q with
  | nil => intro st hh hc hP; exact ⟨hh, hc, hP⟩
  | cons r rest ih =>
      intro st hh hc hP
      by_cases hr : r.date < d
      · have ha := applyRec_nonneg fetch today d snpBar st r hf hh hsnp hc hP
        have ih' := ih (applyRec fetch today d snpBar st r)
          ha.1 ha.2.1 ha.2.2
        rcases hp : processRecs fetch today d snpBar
            (applyRec fetch today d snpBar st r) rest with ⟨st2, q2, log2⟩
        rw [hp] at ih'
        simp only [processRecs, if_pos hr, hp]
        exact ih'
      · simp only [processRecs, if_neg hr]
        exact ⟨hh, hc, hP⟩

theorem valuation_nonneg (d : Date) (hist : Histories) (p : Portfolio)
    (hP : nonnegShares p) : nonnegShares (valuation d hist p).1 := by
  rw [valuation_portfolio]
  intro s q hmem
  obtain ⟨⟨s0, q0⟩, hm0, heq⟩ := List.mem_map.1 hmem
  have hP0 := hP s0 q0 hm0
  rcases hb : barFor d hist s0 with _ | pr
  · simp only [specAccrue, hb] at heq
    obtain ⟨h1, h2⟩ := Prod.mk.inj heq
    subst h1; subst h2
    exact hP0
  · by_cases hdiv : 0 < pr.dividends
    · simp [specAccrue, hb, hdiv] at heq
      obtain ⟨h1, h2⟩ := heq
      subst h1; subst h2
      have hm : (0:ℚ) < 1 + pr.dividends / 100 :=
        add_pos one_pos (div_pos hdiv (by norm_num))
      exact mul_nonneg hP0 (le_of_lt hm)
    · simp [specAccrue, hb, hdiv] at heq
      obtain ⟨h1, h2⟩ := heq
      subst h1; subst h2
      exact hP0

theorem dayStep_nonneg (fetch : String → Date → Date → Hist)
    (today : Date) (month : Date → Nat) (d : Date) (next? : Option Date)
    (bar : PriceBar) (st : SimState) (recs : List Recommendation)
    (hf : fetchBars nonnegBar fetch) (hbar : nonnegBar bar)
    (hh : histBars nonnegBar st.history)
    (hc : 0 ≤ st.cash) (hP : nonnegShares st.portfolio) :
    histBars nonnegBar
      (dayStep fetch today month d next? bar st recs).1.history ∧
    0 ≤ (dayStep fetch today month d next? bar st recs).1.cash ∧
    nonnegShares
      (dayStep fetch today month d next? bar st recs).1.portfolio := by
  have hinv := processRecs_nonneg fetch today d bar hf hbar recs st hh hc hP
  rcases hpr : processRecs fetch today d bar st recs with ⟨st1, recs1, log⟩
  rw [hpr] at hinv
  have hval := valuation_nonneg d st1.history st1.portfolio hinv.2.2
  rcases hv : valuation d st1.history st1.portfolio with ⟨p', f, sn⟩
  rw [hv] at hval
  simp only [dayStep, hpr, hv]
  exact ⟨hinv.1, hinv.2.1, hval⟩

theorem runDays_nonneg (fetch : String → Date → Date → Hist)
    (today : Date) (month : Date → Nat)
    (hf : fetchBars nonnegBar fetch) :
    ∀ (cal : List (Date × PriceBar)) (st : SimState)
      (recs : List Recommendation),
      (∀ e ∈ cal, nonnegBar (Prod.snd e)) →
      histBars nonnegBar st.history → 0 ≤ st.cash →
      nonnegShares st.portfolio →
      histBars nonnegBar (runDays fetch today month cal st recs).1.history ∧
      0 ≤ (runDays fetch today month cal st recs).1.cash ∧
      nonnegShares (runDays fetch today month cal st recs).1.portfolio := by
  intro cal
  induction cal with
  | nil => intro st recs _ hh hc hP; exact ⟨hh, hc, hP⟩
  | cons e rest ih =>
      intro st recs hcal hh hc hP
      obtain ⟨d, bar⟩ := e
      have hbar : nonnegBar bar := hcal (d, bar) (List.mem_cons_self _ _)
      have hds := dayStep_nonneg fetch today month d
        ((rest.head?).map Prod.fst) bar st recs hf hbar hh hc hP
      cases hab : (dayStep fetch today month d ((rest.head?).map Prod.fst)
          bar st recs).2.2.2.2 with
      | true =>
          rw [runDays_cons_abort fetch today month d bar rest st recs hab]
          exact hds
      | false =>
          rw [runDays_cons_ok fetch today month d bar rest st recs hab]
          exact ih (dayStep fetch today month d ((rest.head?).map Prod.fst)
              bar st recs).1
            (dayStep fetch today month d ((rest.head?).map Prod.fst) bar
              st recs).2.1
            (fun e he => hcal e (List.mem_cons_of_mem _ he))
            hds.1 hds.2.1 hds.2.2

/-! ## C10: cash never goes negative -/

/-- C10: assuming every bar the provider returns has non-negative High and
Low values, cash is never negative: it starts at `0`, every applied
recommendation (BUY, SELL or REDUCE — a shortfall BUY sets cash exactly to
`0` rather than overdrawing) keeps `cash ≥ 0` together with all share
counts, every simulated day keeps them, and every completed run ends with
`cash ≥ 0`. -/
theorem cash_nonneg (fetch : String → Date → Date → Hist) (today : Date)
    (month : Date → Nat) (recs : List Recommendation) (fd ld : Date)
    (hf : fetchBars nonnegBar fetch) :
    (∀ (d : Date) (snpBar : PriceBar) (st : SimState)
        (rec : Recommendation),
      nonnegBar snpBar → histBars nonnegBar st.history →
      0 ≤ st.cash → nonnegShares st.portfolio →
      0 ≤ (applyRec fetch today d snpBar st rec).cash ∧
      nonnegShares (applyRec fetch today d snpBar st rec).portfolio) ∧
    (∀ (d : Date) (next? : Option Date) (bar : PriceBar) (st : SimState)
        (pending : List Recommendation),
      nonnegBar bar → histBars nonnegBar st.history →
      0 ≤ st.cash → nonnegShares st.portfolio →
      0 ≤ (dayStep fetch today month d next? bar st pending).1.cash ∧
      nonnegShares
        (dayStep fetch today month d next? bar st pending).1.portfolio) ∧
    (∀ (st : SimState) (rows : List OutputRow),
      (simulate_portfolio fetch today month recs fd ld).2 = some (st, rows) →
      0 ≤ st.cash) := by
  refine ⟨?_, ?_, ?_⟩
  · intro d snpBar st rec hsnp hh hc hP
    exact (applyRec_nonneg fetch today d snpBar st rec hf hh hsnp hc hP).2
  · intro d next? bar st pending hbar hh hc hP
    have := dayStep_nonneg fetch today month d next? bar st pending
      hf hbar hh hc hP
    exact ⟨this.2.1, this.2.2⟩
  · intro st rows hsome
    obtain ⟨recs', log, hrr⟩ :=
      simulate_some fetch today month recs fd ld st rows hsome
    have hh0 : histBars nonnegBar [(SnP500, fetch SnP500 fd ld)] := by
      intro s hs hmem d b hb
      rcases List.mem_singleton.1 hmem with h
      obtain ⟨h1, h2⟩ := Prod.mk.inj h
      exact hf SnP500 fd ld d b (h2 ▸ hb)
    have hP0 : nonnegShares ([(SnP500, 0)] : Portfolio) := by
      intro s q hmem
      rcases List.mem_singleton.1 hmem with h
      obtain ⟨h1, h2⟩ := Prod.mk.inj h
      subst h2
      exact le_refl 0
    have hcal : ∀ e ∈ fetch SnP500 fd ld, nonnegBar (Prod.snd e) :=
      fun e he => hf SnP500 fd ld e.1 e.2 (by simpa using he)
    have hrun := runDays_nonneg fetch today month hf (fetch SnP500 fd ld)
      { portfolio := [(SnP500, 0)],
        history := [(SnP500, fetch SnP500 fd ld)],
        cash := 0, investment := 0 } (sortRecs recs fd) hcal hh0
      (le_refl 0) hP0
    rw [hrr] at hrun
    exact hrun.2.1

/-- Witness for C10 on the one-day provider. -/
theorem cash_nonneg_witness :
    (∀ (d : Date) (snpBar : PriceBar) (st : SimState)
        (rec : Recommendation),
      nonnegBar snpBar → histBars nonnegBar st.history →
      0 ≤ st.cash → nonnegShares st.portfolio →
      0 ≤ (applyRec fetch1 0 d snpBar st rec).cash ∧
      nonnegShares (applyRec fetch1 0 d snpBar st rec).portfolio) ∧
    (∀ (d : Date) (next? : Option Date) (bar : PriceBar) (st : SimState)
        (pending : List Recommendation),
      nonnegBar bar → histBars nonnegBar st.history →
      0 ≤ st.cash → nonnegShares st.portfolio →
      0 ≤ (dayStep fetch1 0 monthZero d next? bar st pending).1.cash ∧
      nonnegShares
        (dayStep fetch1 0 monthZero d next? bar st pending).1.portfolio) ∧
    (∀ (st : SimState) (rows : List OutputRow),
      (simulate_portfolio fetch1 0 monthZero [] 0 9).2 = some (st, rows) →
      0 ≤ st.cash) :=
  cash_nonneg fetch1 0 monthZero [] 0 9
    (fun s d₁ d₂ d b hb => by
      simp only [fetch1, List.mem_singleton] at hb
      obtain ⟨h1, h2⟩ := Prod.mk.inj hb
      rw [h2]
      exact (by decide : (0:ℚ) ≤ bar0.high ∧ (0:ℚ) ≤ bar0.low))

/-! ## C9: missing data and the month-end reporter -/

/-- C9 claims that missing-data conditions never abort a run and that the
remaining `OutputRow`s are always produced.  The day loop itself does
recover (lines 90-101 and 137-140 guard every access and skip with a
warning), but the month-end / final-day report (lines 153-166, a debug
block per its own comment) reads `history[symbol].loc[current_date]` with
no membership guard.  On this input the benchmark trades on days 2 and 4
and `"BBB"`, bought on day 2, has no bar for day 4: day 4's valuation of
`"BBB"` is duly skipped with a warning, the day's row is appended, and
then the final-day report raises `KeyError` on `"BBB"` — the run aborts
and `simulate_portfolio` returns no output at all, although the benchmark
calendar had two trading days. -/
theorem missing_data_abort :
    (simulate_portfolio fetchBug 9 monthZero
        [⟨1, "BBB", "BBB Corp", "buy"⟩] 0 9).2 = none ∧
    (fetchBug SnP500 0 9).length = 2 := by
  constructor
  · simp [simulate_portfolio, sortRecs, runDays, dayStep, processRecs,
      applyRec, applyPriced, valuation, monthEndAborts, barFor, lookupA,
      setA, specAccrue, fetchBug, bar0, bar2, SnP500, INVESTMENT, lower,
      monthZero]
  · decide

end FoolSim
